import Mathlib

/-!
Verification of the retrieval-intelligence core of the menu-intelligence
suite: score fusion (`src/core/hybrid.py`, `src/core/utils.py`),
similarity clustering (`src/core/dedup.py`), label tagging
(`src/core/tagging.py`), content recommendation (`src/core/recommend.py`),
evaluation metrics (`src/core/eval.py`) and text normalization
(`src/core/normalize.py`).

Modelling conventions:
* Python floats are modelled as rationals (`ℚ`); all arithmetic in the
  source is elementary (+, *, /, comparisons), so this is exact.
* External numeric collaborators (the embedding provider and the cosine
  similarity kernels of `src/core/embeddings.py`, and `np.log2` inside
  NDCG) are abstracted as function parameters: every claim below is
  proved for an arbitrary such function, which subsumes the concrete one.
* Python dicts are modelled as association lists in insertion order with
  unique keys; `dict.get(k, d)` is `(dictGet l k).getD d`.
* Python's stable `sorted(key=score, reverse=True)` is modelled by a
  stable structurally-recursive insertion sort that keeps ties in their
  original relative order, exactly as Python's stable sort does.
-/

namespace MIS

/-- Python `dict.get`: first binding of a key in an association list. -/
def dictGet {α β : Type} [DecidableEq α] : List (α × β) → α → Option β
  | [], _ => none
  | (k, v) :: rest, x => if k = x then some v else dictGet rest x

/-- Building a Python dict from a list of pairs: later bindings of the same
key overwrite in place, fresh keys are appended (insertion order). -/
def dictInsert {α β : Type} [DecidableEq α] (l : List (α × β)) (k : α) (v : β) :
    List (α × β) :=
  if k ∈ l.map Prod.fst then
    l.map (fun p => if p.1 = k then (k, v) else p)
  else l ++ [(k, v)]

/-- Python `dict((k, v) for (k, v) in l)`. -/
def dictOfList {α β : Type} [DecidableEq α] (l : List (α × β)) : List (α × β) :=
  l.foldl (fun acc p => dictInsert acc p.1 p.2) []

/-- One step of a stable descending insertion sort on the score component:
the new pair goes after every pair whose score is `≥` its own (so ties keep
their original relative order, as Python's stable `sorted` does). -/
def insertScoreDesc {α β : Type} [LinearOrder β] (p : α × β) :
    List (α × β) → List (α × β)
  | [] => [p]
  | q :: rest => if p.2 ≤ q.2 then q :: insertScoreDesc p rest else p :: q :: rest

/-- Python `sorted(pairs, key=lambda x: x[1], reverse=True)`: stable
descending sort on the second (score) component, as a structurally
recursive insertion sort (extensionally equal to Python's stable sort). -/
def sortByScoreDesc {α β : Type} [LinearOrder β] (l : List (α × β)) :
    List (α × β) :=
  l.foldl (fun acc p => insertScoreDesc p acc) []

/-- `min_max_normalize` from `src/core/utils.py` (lines 30-41): empty list
maps to empty; if `max - min < 1e-9` every score maps to `1.0`; otherwise
affine rescaling to `[0, 1]`. Python's `min(scores)` / `max(scores)` over a
non-empty list are left folds of the binary `min` / `max` over the list. -/
def min_max_normalize (scores : List ℚ) : List ℚ :=
  match scores with
  | [] => []
  | s₀ :: rest =>
    let min_score := rest.foldl min s₀
    let max_score := rest.foldl max s₀
    if max_score - min_score < 1 / 1000000000 then
      (s₀ :: rest).map (fun _ => 1)
    else
      (s₀ :: rest).map (fun s => (s - min_score) / (max_score - min_score))

/-- The normalized sparse dictionary built at `src/core/hybrid.py` lines
31-34: `dict(zip(sparse_dict.keys(), min_max_normalize(sparse_dict.values())))`. -/
def normalizedScores {α : Type} [DecidableEq α] (scores : List (α × ℚ)) :
    List (α × ℚ) :=
  let d := dictOfList scores
  (d.map Prod.fst).zip (min_max_normalize (d.map Prod.snd))

/-- A Python `set` built from a list, iterated in first-seen order (Python
set order is unspecified; all properties stated below are
order-insensitive). -/
def pySetList {α : Type} [DecidableEq α] (l : List α) : List α :=
  l.foldl (fun acc x => if x ∈ acc then acc else acc ++ [x]) []

/-- `combine_scores` from `src/core/hybrid.py` (lines 7-51). -/
def combine_scores {α : Type} [DecidableEq α]
    (sparse_scores dense_scores : List (α × ℚ)) (alpha : ℚ) :
    List (α × ℚ) :=
  let sparse_dict := dictOfList sparse_scores
  let dense_dict := dictOfList dense_scores
  let all_ids := pySetList (sparse_dict.map Prod.fst ++ dense_dict.map Prod.fst)
  let sparse_dict :=
    if sparse_scores ≠ [] then normalizedScores sparse_scores else sparse_dict
  let dense_dict :=
    if dense_scores ≠ [] then normalizedScores dense_scores else dense_dict
  let combined := all_ids.map (fun i =>
    (i, alpha * ((dictGet sparse_dict i).getD 0)
      + (1 - alpha) * ((dictGet dense_dict i).getD 0)))
  sortByScoreDesc combined

/-! ### Supporting lemmas: dictionaries, sets, sorting, normalization -/

theorem dictInsert_of_not_mem {α β : Type} [DecidableEq α]
    {l : List (α × β)} {k : α} (v : β) (h : k ∉ l.map Prod.fst) :
    dictInsert l k v = l ++ [(k, v)] := by
  simp [dictInsert, h]

theorem dictOfList_aux_eq {α β : Type} [DecidableEq α] :
    ∀ (l acc : List (α × β)),
      (acc.map Prod.fst ++ l.map Prod.fst).Nodup →
      l.foldl (fun acc p => dictInsert acc p.1 p.2) acc = acc ++ l := by
  intro l
  induction l with
  | nil => intro acc _; simp
  | cons p rest ih =>
    intro acc h
    obtain ⟨k, v⟩ := p
    have hk : k ∉ acc.map Prod.fst := by
      intro hmem
      rcases List.nodup_append.1 h with ⟨_, _, hdisj⟩
      exact hdisj hmem (by simp)
    have h' : ((acc ++ [(k, v)]).map Prod.fst ++ rest.map Prod.fst).Nodup := by
      simpa [List.append_assoc] using h
    calc (rest).foldl (fun acc p => dictInsert acc p.1 p.2)
            (dictInsert acc k v)
        = (rest).foldl (fun acc p => dictInsert acc p.1 p.2) (acc ++ [(k, v)]) := by
          rw [dictInsert_of_not_mem _ hk]
      _ = (acc ++ [(k, v)]) ++ rest := ih (acc ++ [(k, v)]) h'
      _ = acc ++ (k, v) :: rest := by simp

theorem dictOfList_eq_self {α β : Type} [DecidableEq α]
    {l : List (α × β)} (h : (l.map Prod.fst).Nodup) : dictOfList l = l := by
  simpa using dictOfList_aux_eq l [] (by simpa using h)

theorem mem_pySetList_aux {α : Type} [DecidableEq α] :
    ∀ (l acc : List α) (x : α),
      x ∈ l.foldl (fun acc x => if x ∈ acc then acc else acc ++ [x]) acc ↔
        x ∈ acc ∨ x ∈ l := by
  intro l
  induction l with
  | nil => simp
  | cons a rest ih =>
    intro acc x
    simp only [List.foldl_cons]
    by_cases ha : a ∈ acc
    · rw [if_pos ha, ih]
      constructor
      · rintro (h | h)
        · exact Or.inl h
        · exact Or.inr (List.mem_cons_of_mem _ h)
      · rintro (h | h)
        · exact Or.inl h
        · rcases List.mem_cons.1 h with rfl | h
          · exact Or.inl ha
          · exact Or.inr h
    · rw [if_neg ha, ih]
      constructor
      · rintro (h | h)
        · rcases List.mem_append.1 h with h | h
          · exact Or.inl h
          · simp only [List.mem_singleton] at h
            exact Or.inr (h ▸ List.mem_cons_self a rest)
        · exact Or.inr (List.mem_cons_of_mem _ h)
      · rintro (h | h)
        · exact Or.inl (List.mem_append.2 (Or.inl h))
        · rcases List.mem_cons.1 h with rfl | h
          · exact Or.inl (List.mem_append.2 (Or.inr (by simp)))
          · exact Or.inr h

theorem mem_pySetList {α : Type} [DecidableEq α] {l : List α} {x : α} :
    x ∈ pySetList l ↔ x ∈ l := by
  simpa using mem_pySetList_aux l [] x

theorem pySetList_nodup_aux {α : Type} [DecidableEq α] :
    ∀ (l acc : List α), acc.Nodup →
      (l.foldl (fun acc x => if x ∈ acc then acc else acc ++ [x]) acc).Nodup := by
  intro l
  induction l with
  | nil => intro acc h; simpa using h
  | cons a rest ih =>
    intro acc h
    simp only [List.foldl_cons]
    by_cases ha : a ∈ acc
    · rw [if_pos ha]; exact ih acc h
    · rw [if_neg ha]
      exact ih (acc ++ [a]) (by simp [List.nodup_append, h, ha])

theorem pySetList_nodup {α : Type} [DecidableEq α] (l : List α) :
    (pySetList l).Nodup :=
  pySetList_nodup_aux l [] List.nodup_nil

theorem insertScoreDesc_perm {α β : Type} [LinearOrder β]
    (p : α × β) : ∀ (l : List (α × β)), (insertScoreDesc p l).Perm (p :: l) := by
  intro l
  induction l with
  | nil => simp [insertScoreDesc]
  | cons q rest ih =>
    simp only [insertScoreDesc]
    split
    · exact (ih.cons q).trans (List.Perm.swap p q rest)
    · exact List.Perm.refl _

theorem sortByScoreDesc_perm_aux {α β : Type} [LinearOrder β] :
    ∀ (l acc : List (α × β)),
      (l.foldl (fun acc p => insertScoreDesc p acc) acc).Perm (acc ++ l) := by
  intro l
  induction l with
  | nil => simp
  | cons p rest ih =>
    intro acc
    simp only [List.foldl_cons]
    refine (ih (insertScoreDesc p acc)).trans ?_
    have h1 : (insertScoreDesc p acc ++ rest).Perm ((p :: acc) ++ rest) :=
      (insertScoreDesc_perm p acc).append_right rest
    refine h1.trans ?_
    simpa using
      (show (acc ++ p :: rest).Perm (p :: (acc ++ rest)) from
        List.perm_middle).symm

theorem sortByScoreDesc_perm {α β : Type} [LinearOrder β]
    (l : List (α × β)) : (sortByScoreDesc l).Perm l := by
  simpa using sortByScoreDesc_perm_aux l []

theorem min_max_normalize_length (scores : List ℚ) :
    (min_max_normalize scores).length = scores.length := by
  match scores with
  | [] => rfl
  | s₀ :: rest =>
    simp only [min_max_normalize]
    split <;> simp

theorem dictGet_eq_none {α β : Type} [DecidableEq α] :
    ∀ {l : List (α × β)} {x : α}, x ∉ l.map Prod.fst → dictGet l x = none := by
  intro l
  induction l with
  | nil => intro x _; rfl
  | cons p rest ih =>
    intro x hx
    have h1 : p.1 ≠ x := by
      intro h; exact hx (by simp [h.symm])
    have h2 : x ∉ rest.map Prod.fst := fun h => hx (by simp [h])
    simpa [dictGet, h1] using ih h2

theorem normalizedScores_keys {α : Type} [DecidableEq α]
    (l : List (α × ℚ)) :
    (normalizedScores l).map Prod.fst = (dictOfList l).map Prod.fst := by
  have hlen : ((dictOfList l).map Prod.fst).length
      = (min_max_normalize ((dictOfList l).map Prod.snd)).length := by
    rw [min_max_normalize_length]; simp
  simp [normalizedScores, List.map_fst_zip _ _ (le_of_eq hlen)]

theorem foldl_min_mem {β : Type} [LinearOrder β] :
    ∀ (l : List β) (a : β), l.foldl min a ∈ a :: l := by
  intro l
  induction l with
  | nil => simp
  | cons x xs ih =>
    intro a
    simp only [List.foldl_cons]
    have h := ih (min a x)
    rcases List.mem_cons.1 h with h | h
    · rw [h]
      rcases min_choice a x with hm | hm <;> rw [hm] <;> simp
    · exact List.mem_cons_of_mem _ (List.mem_cons_of_mem _ h)

theorem foldl_max_mem {β : Type} [LinearOrder β] :
    ∀ (l : List β) (a : β), l.foldl max a ∈ a :: l := by
  intro l
  induction l with
  | nil => simp
  | cons x xs ih =>
    intro a
    simp only [List.foldl_cons]
    have h := ih (max a x)
    rcases List.mem_cons.1 h with h | h
    · rw [h]
      rcases max_choice a x with hm | hm <;> rw [hm] <;> simp
    · exact List.mem_cons_of_mem _ (List.mem_cons_of_mem _ h)

/-! ### Claims C1 and C5: score fusion -/

/-- C1: for non-empty sparse and dense score lists with distinct
identifiers and `alpha ∈ [0, 1]`, `combine_scores` returns exactly one
entry per identifier of the union (its id list is a permutation of the
duplicate-free union); a sparse-only identifier scores
`alpha * normalizedSparse` and a dense-only identifier scores
`(1 - alpha) * normalizedDense`. -/
theorem c1_combine_scores_union_exclusive {α : Type} [DecidableEq α]
    (sparse dense : List (α × ℚ)) (alpha : ℚ)
    (hs : sparse ≠ []) (hd : dense ≠ [])
    (hns : (sparse.map Prod.fst).Nodup) (hnd : (dense.map Prod.fst).Nodup)
    (h0 : 0 ≤ alpha) (h1 : alpha ≤ 1) :
    ((combine_scores sparse dense alpha).map Prod.fst).Perm
        (pySetList (sparse.map Prod.fst ++ dense.map Prod.fst)) ∧
    (∀ x ∈ sparse.map Prod.fst, x ∉ dense.map Prod.fst →
      (x, alpha * ((dictGet (normalizedScores sparse) x).getD 0))
        ∈ combine_scores sparse dense alpha) ∧
    (∀ x ∈ dense.map Prod.fst, x ∉ sparse.map Prod.fst →
      (x, (1 - alpha) * ((dictGet (normalizedScores dense) x).getD 0))
        ∈ combine_scores sparse dense alpha) := by
  have hds : dictOfList sparse = sparse := dictOfList_eq_self hns
  have hdd : dictOfList dense = dense := dictOfList_eq_self hnd
  have hc : combine_scores sparse dense alpha =
      sortByScoreDesc
        ((pySetList (sparse.map Prod.fst ++ dense.map Prod.fst)).map (fun i =>
          (i, alpha * ((dictGet (normalizedScores sparse) i).getD 0)
            + (1 - alpha) * ((dictGet (normalizedScores dense) i).getD 0)))) := by
    simp only [combine_scores, hds, hdd, if_pos hs, if_pos hd, ne_eq,
      hs, hd, not_false_eq_true, if_true]
  refine ⟨?_, ?_, ?_⟩
  · rw [hc]
    refine ((sortByScoreDesc_perm _).map Prod.fst).trans ?_
    have heq : (List.map
        (fun i => (i,
          alpha * ((dictGet (normalizedScores sparse) i).getD 0)
            + (1 - alpha) * ((dictGet (normalizedScores dense) i).getD 0)))
        (pySetList (sparse.map Prod.fst ++ dense.map Prod.fst))).map Prod.fst
        = pySetList (sparse.map Prod.fst ++ dense.map Prod.fst) := by
      rw [List.map_map]
      simp [Function.comp_def]
    rw [heq]
  · intro x hx hxd
    have hxU : x ∈ pySetList (sparse.map Prod.fst ++ dense.map Prod.fst) :=
      mem_pySetList.2 (List.mem_append.2 (Or.inl hx))
    have hnone : dictGet (normalizedScores dense) x = none := by
      apply dictGet_eq_none
      rw [normalizedScores_keys, hdd]
      exact hxd
    rw [hc, (sortByScoreDesc_perm _).mem_iff]
    have hmem := List.mem_map_of_mem (fun i =>
      (i, alpha * ((dictGet (normalizedScores sparse) i).getD 0)
        + (1 - alpha) * ((dictGet (normalizedScores dense) i).getD 0))) hxU
    simpa [hnone] using hmem
  · intro x hx hxs
    have hxU : x ∈ pySetList (sparse.map Prod.fst ++ dense.map Prod.fst) :=
      mem_pySetList.2 (List.mem_append.2 (Or.inr hx))
    have hnone : dictGet (normalizedScores sparse) x = none := by
      apply dictGet_eq_none
      rw [normalizedScores_keys, hds]
      exact hxs
    rw [hc, (sortByScoreDesc_perm _).mem_iff]
    have hmem := List.mem_map_of_mem (fun i =>
      (i, alpha * ((dictGet (normalizedScores sparse) i).getD 0)
        + (1 - alpha) * ((dictGet (normalizedScores dense) i).getD 0))) hxU
    simpa [hnone] using hmem

/-- Witness for C1 at a concrete input: sparse `[(1, 10), (2, 5)]`,
dense `[(2, 9/10), (3, 1/2)]`, `alpha = 1/2`; identifier 1 is sparse-only. -/
theorem c1_combine_scores_union_exclusive_witness :
    ((1 : ℕ), (1 : ℚ) / 2 *
        ((dictGet (normalizedScores [((1 : ℕ), (10 : ℚ)), (2, 5)]) 1).getD 0))
      ∈ combine_scores [((1 : ℕ), (10 : ℚ)), (2, 5)] [(2, 9 / 10), (3, 1 / 2)]
          (1 / 2) :=
  (c1_combine_scores_union_exclusive [(1, 10), (2, 5)] [(2, 9 / 10), (3, 1 / 2)]
      (1 / 2) (by decide) (by decide) (by decide) (by decide)
      (by norm_num) (by norm_num)).2.1 1 (by decide) (by decide)

/-- C5: (a) if every pair of scores in a non-empty list differs by less
than the `1e-9` epsilon (so `max - min` is below it), every member
normalizes to `1.0`; (b) with an empty sparse list every combined entry's
score is `(1 - alpha)` times the normalized dense score (the empty list
contributes 0); (c) symmetrically for an empty dense list. -/
theorem c5_min_max_epsilon_and_empty_contribution :
    (∀ scores : List ℚ, scores ≠ [] →
      (∀ x ∈ scores, ∀ y ∈ scores, |x - y| < 1 / 1000000000) →
      min_max_normalize scores = List.replicate scores.length 1) ∧
    (∀ (α : Type) (_ : DecidableEq α) (dense : List (α × ℚ)) (alpha : ℚ)
      (x : α) (v : ℚ), (x, v) ∈ combine_scores [] dense alpha →
      v = (1 - alpha) * ((dictGet (normalizedScores dense) x).getD 0)) ∧
    (∀ (α : Type) (_ : DecidableEq α) (sparse : List (α × ℚ)) (alpha : ℚ)
      (x : α) (v : ℚ), (x, v) ∈ combine_scores sparse [] alpha →
      v = alpha * ((dictGet (normalizedScores sparse) x).getD 0)) := by
  refine ⟨?_, ?_, ?_⟩
  · intro scores hne hclose
    cases scores with
    | nil => exact absurd rfl hne
    | cons s₀ rest =>
      simp only [min_max_normalize]
      have hmx := foldl_max_mem rest s₀
      have hmn := foldl_min_mem rest s₀
      have hlt : rest.foldl max s₀ - rest.foldl min s₀ < 1 / 1000000000 :=
        lt_of_le_of_lt (le_abs_self _) (hclose _ hmx _ hmn)
      rw [if_pos hlt]
      simp [List.replicate_succ]
  · intro α _ dense alpha x v hmem
    by_cases hdne : dense = []
    · subst hdne
      simp only [combine_scores, dictOfList, dictGet, normalizedScores,
        min_max_normalize, pySetList, sortByScoreDesc, List.foldl_nil,
        List.map_nil, List.mergeSort_nil, List.zip_nil_right,
        List.append_nil] at hmem
      simp at hmem
    · have hmem' := (sortByScoreDesc_perm _).mem_iff.1 (by
        simpa only [combine_scores, if_pos hdne, ne_eq, not_true_eq_false,
          if_false, hdne, not_false_eq_true, if_true, dictOfList,
          List.foldl_nil, dictGet, Option.getD_none, mul_zero, zero_add]
          using hmem)
      rcases List.mem_map.1 hmem' with ⟨i, _, heq⟩
      have hx : i = x := congrArg Prod.fst heq
      have hv := congrArg Prod.snd heq
      simp only at hv
      rw [← hv, hx]
  · intro α _ sparse alpha x v hmem
    by_cases hsne : sparse = []
    · subst hsne
      simp only [combine_scores, dictOfList, dictGet, normalizedScores,
        min_max_normalize, pySetList, sortByScoreDesc, List.foldl_nil,
        List.map_nil, List.mergeSort_nil, List.zip_nil_right,
        List.append_nil] at hmem
      simp at hmem
    · have hmem' := (sortByScoreDesc_perm _).mem_iff.1 (by
        simpa only [combine_scores, if_pos hsne, ne_eq, not_true_eq_false,
          if_false, hsne, not_false_eq_true, if_true, dictOfList,
          List.foldl_nil, dictGet, Option.getD_none, mul_zero, add_zero]
          using hmem)
      rcases List.mem_map.1 hmem' with ⟨i, _, heq⟩
      have hx : i = x := congrArg Prod.fst heq
      have hv := congrArg Prod.snd heq
      simp only at hv
      rw [← hv, hx]

/-- Witness for C5 at concrete inputs: the uniform list `[2]` normalizes
to `[1]`, and in `combine_scores [] [(4, 7)] 0` the identifier 4 scores
`(1 - 0) * 1 = 1`. -/
theorem c5_min_max_epsilon_and_empty_contribution_witness :
    min_max_normalize [2] = List.replicate 1 1 ∧
    (1 : ℚ) = (1 - 0) * ((dictGet (normalizedScores [((4 : ℕ), (7 : ℚ))]) 4).getD 0) :=
  ⟨c5_min_max_epsilon_and_empty_contribution.1 [2] (by decide)
      (by
        intro x hx y hy
        simp only [List.mem_singleton] at hx hy
        subst hx; subst hy
        norm_num),
   c5_min_max_epsilon_and_empty_contribution.2.1 ℕ inferInstance
     [(4, 7)] 0 4 1
     (by
       norm_num [combine_scores, dictOfList, dictInsert, dictGet, pySetList,
         normalizedScores, min_max_normalize, sortByScoreDesc,
         insertScoreDesc])⟩

/-! ### Evaluation metrics (`src/core/eval.py`) -/

/-- 1-based rank scan of `src/core/eval.py` lines 67-73 and 210-213:
`for rank, item in enumerate(pred, start=1): if item in true_set: ...`. -/
def firstHitFrom {α : Type} [DecidableEq α] (true_set : List α) :
    List α → ℕ → Option ℕ
  | [], _ => none
  | x :: rest, r => if x ∈ true_set then some r else firstHitFrom true_set rest (r + 1)

/-- Rank (1-based) of the first prediction that is in the relevant set. -/
def firstHitRank {α : Type} [DecidableEq α] (pred true_set : List α) : Option ℕ :=
  firstHitFrom true_set pred 1

/-- `len(set(a) & set(b))` for Python sets built from the two lists. -/
def pyInterCard {α : Type} [DecidableEq α] (a b : List α) : ℕ :=
  ((pySetList a).filter (fun x => decide (x ∈ b))).length

/-- `recall_at_k` from `src/core/eval.py` (lines 7-40): error on mismatched
lengths; per query with a non-empty relevant set,
`|top-k ∩ relevant| / |relevant|`; mean over the collected values, `0.0`
if none were collected. -/
def recall_at_k {α : Type} [DecidableEq α]
    (predictions ground_truth : List (List α)) (k : ℕ) : Except String ℚ :=
  if predictions.length ≠ ground_truth.length then
    .error "Predictions and ground truth must have same length"
  else
    let recalls := (predictions.zip ground_truth).filterMap (fun pq =>
      let true_set := pySetList pq.2
      if true_set.isEmpty then none
      else some ((pyInterCard (pq.1.take k) true_set : ℚ) / true_set.length))
    .ok (if recalls.isEmpty then 0 else recalls.sum / recalls.length)

/-- `mean_reciprocal_rank` from `src/core/eval.py` (lines 43-75). -/
def mean_reciprocal_rank {α : Type} [DecidableEq α]
    (predictions ground_truth : List (List α)) : Except String ℚ :=
  if predictions.length ≠ ground_truth.length then
    .error "Predictions and ground truth must have same length"
  else
    let reciprocal_ranks := (predictions.zip ground_truth).filterMap (fun pq =>
      let true_set := pySetList pq.2
      if true_set.isEmpty then none
      else some (match firstHitRank pq.1 true_set with
        | some r => (1 : ℚ) / r
        | none => 0))
    .ok (if reciprocal_ranks.isEmpty then 0
      else reciprocal_ranks.sum / reciprocal_ranks.length)

/-- `precision_at_k` from `src/core/eval.py` (lines 78-111):
`|top-k ∩ relevant| / k` (division by `k`, not by the retrieved count). -/
def precision_at_k {α : Type} [DecidableEq α]
    (predictions ground_truth : List (List α)) (k : ℕ) : Except String ℚ :=
  if predictions.length ≠ ground_truth.length then
    .error "Predictions and ground truth must have same length"
  else
    let precisions := (predictions.zip ground_truth).filterMap (fun pq =>
      let true_set := pySetList pq.2
      if true_set.isEmpty then none
      else some (if 0 < k then (pyInterCard (pq.1.take k) true_set : ℚ) / k else 0))
    .ok (if precisions.isEmpty then 0 else precisions.sum / precisions.length)

/-- `ndcg_at_k` from `src/core/eval.py` (lines 114-152). `np.log2` is an
external transcendental primitive; it is abstracted as the parameter
`log2` (applied at the integer ranks the source applies it at), and all
properties below hold for every such function. -/
def ndcg_at_k {α : Type} [DecidableEq α] (log2 : ℕ → ℚ)
    (predictions ground_truth : List (List α)) (k : ℕ) : Except String ℚ :=
  if predictions.length ≠ ground_truth.length then
    .error "Predictions and ground truth must have same length"
  else
    let ndcgs := (predictions.zip ground_truth).filterMap (fun pq =>
      let true_set := pySetList pq.2
      if true_set.isEmpty then none
      else
        let dcg := ((pq.1.take k).enum).foldl (fun acc ji =>
          if ji.2 ∈ true_set then acc + 1 / log2 (ji.1 + 2) else acc) 0
        let idcg := ((List.range (min true_set.length k)).map
          (fun i => (1 : ℚ) / log2 (i + 2))).sum
        some (if 0 < idcg then dcg / idcg else 0))
    .ok (if ndcgs.isEmpty then 0 else ndcgs.sum / ndcgs.length)

/-- The per-query record built at `src/core/eval.py` lines 215-222. -/
structure QueryMetric (α : Type) where
  query_id : String
  num_relevant : ℕ
  hit : ℕ
  first_hit_rank : Option ℕ
  recall_score : ℚ
  precision : ℚ

/-- `per_query_metrics` from `src/core/eval.py` (lines 181-224). Note the
source has no length check here: `zip(query_ids, predictions, ground_truth)`
silently stops at the shortest of the three. -/
def per_query_metrics {α : Type} [DecidableEq α]
    (predictions ground_truth : List (List α))
    (query_ids : Option (List String)) (k : ℕ) : List (QueryMetric α) :=
  let qids := match query_ids with
    | none => (List.range predictions.length).map (fun i => "q" ++ toString i)
    | some qs => qs
  (qids.zip (predictions.zip ground_truth)).map (fun qpt =>
    let true_set := pySetList qpt.2.2
    let inter := pyInterCard (qpt.2.1.take k) true_set
    { query_id := qpt.1
      num_relevant := true_set.length
      hit := if ((pySetList (qpt.2.1.take k)).filter
          (fun x => decide (x ∈ true_set))).isEmpty then 0 else 1
      first_hit_rank := firstHitRank qpt.2.1 true_set
      recall_score := if true_set.isEmpty then 0 else (inter : ℚ) / true_set.length
      precision := if 0 < k then (inter : ℚ) / k else 0 })

theorem filterMap_append_single_none {γ δ : Type} (f : γ → Option δ)
    (l : List γ) (x : γ) (h : f x = none) :
    (l ++ [x]).filterMap f = l.filterMap f := by
  simp [List.filterMap_append, h]

/-! ### Claims C3 and C4: evaluation metrics -/

/-- C3 counterexample: `per_query_metrics` does not fail fast on
mismatched lengths. With one prediction list and zero ground-truth lists
(lengths 1 and 0), it silently truncates to the shorter length and
returns `[]` instead of raising. -/
theorem c3_per_query_metrics_silent_truncation :
    [[(1 : ℕ)]].length ≠ ([] : List (List ℕ)).length ∧
    per_query_metrics [[(1 : ℕ)]] ([] : List (List ℕ)) none 10 = [] :=
  ⟨by decide, rfl⟩

/-- C3 (amended): `recall_at_k`, `precision_at_k`, `mean_reciprocal_rank`
and `ndcg_at_k` fail fast with the descriptive error on mismatched
prediction/ground-truth lengths; `per_query_metrics` performs no length
check and instead silently iterates over the shorter prefix (its output
length is the minimum of the two input lengths). -/
theorem c3_metrics_length_mismatch_amended :
    (∀ (α : Type) (_ : DecidableEq α) (p t : List (List α)) (k : ℕ),
      p.length ≠ t.length →
      recall_at_k p t k =
        Except.error "Predictions and ground truth must have same length") ∧
    (∀ (α : Type) (_ : DecidableEq α) (p t : List (List α)) (k : ℕ),
      p.length ≠ t.length →
      precision_at_k p t k =
        Except.error "Predictions and ground truth must have same length") ∧
    (∀ (α : Type) (_ : DecidableEq α) (p t : List (List α)),
      p.length ≠ t.length →
      mean_reciprocal_rank p t =
        Except.error "Predictions and ground truth must have same length") ∧
    (∀ (α : Type) (_ : DecidableEq α) (log2 : ℕ → ℚ) (p t : List (List α))
      (k : ℕ), p.length ≠ t.length →
      ndcg_at_k log2 p t k =
        Except.error "Predictions and ground truth must have same length") ∧
    (∀ (α : Type) (_ : DecidableEq α) (p t : List (List α)) (k : ℕ),
      (per_query_metrics p t none k).length = min p.length t.length) := by
  refine ⟨?_, ?_, ?_, ?_, ?_⟩
  · intro α _ p t k h
    simp only [recall_at_k, if_pos h]
  · intro α _ p t k h
    simp only [precision_at_k, if_pos h]
  · intro α _ p t h
    simp only [mean_reciprocal_rank, if_pos h]
  · intro α _ log2 p t k h
    simp only [ndcg_at_k, if_pos h]
  · intro α _ p t k
    simp only [per_query_metrics, List.length_map, List.length_zip,
      List.length_range]
    omega

/-- Witness for C3 (amended) at concrete inputs: lengths 1 vs 0 raise the
error in `recall_at_k`, and `per_query_metrics` on lengths 2 vs 1 returns
`min 2 1` records. -/
theorem c3_metrics_length_mismatch_amended_witness :
    recall_at_k [[(1 : ℕ)]] ([] : List (List ℕ)) 2 =
      Except.error "Predictions and ground truth must have same length" ∧
    (per_query_metrics [[(1 : ℕ)], [2]] [[(3 : ℕ)]] none 7).length = min 2 1 :=
  ⟨c3_metrics_length_mismatch_amended.1 ℕ inferInstance [[1]] [] 2 (by decide),
   c3_metrics_length_mismatch_amended.2.2.2.2 ℕ inferInstance [[1], [2]] [[3]] 7⟩

/-- C4: the four averaged metrics skip queries whose relevant set is empty
(appending such a query to any well-formed input leaves each metric's
value unchanged — it is neither scored 0 nor 1), and on the concrete
example of the specification, `recall_at_k` at `k = 5` equals
`(2/3 + 1/2) / 2 = 7/12`. -/
theorem c4_metrics_exclude_empty_truth :
    (∀ (α : Type) (_ : DecidableEq α) (p t : List (List α)) (k : ℕ)
      (q : List α), p.length = t.length →
      recall_at_k (p ++ [q]) (t ++ [[]]) k = recall_at_k p t k) ∧
    (∀ (α : Type) (_ : DecidableEq α) (p t : List (List α)) (k : ℕ)
      (q : List α), p.length = t.length →
      precision_at_k (p ++ [q]) (t ++ [[]]) k = precision_at_k p t k) ∧
    (∀ (α : Type) (_ : DecidableEq α) (p t : List (List α))
      (q : List α), p.length = t.length →
      mean_reciprocal_rank (p ++ [q]) (t ++ [[]]) = mean_reciprocal_rank p t) ∧
    (∀ (α : Type) (_ : DecidableEq α) (log2 : ℕ → ℚ) (p t : List (List α))
      (k : ℕ) (q : List α), p.length = t.length →
      ndcg_at_k log2 (p ++ [q]) (t ++ [[]]) k = ndcg_at_k log2 p t k) ∧
    recall_at_k [[1, 2, 3, 4, 5], [10, 11, 12]] [[(1 : ℕ), 3, 6], [11, 13]] 5 =
      Except.ok (7 / 12) := by
  refine ⟨?_, ?_, ?_, ?_, ?_⟩
  · intro α _ p t k q h
    have hL : ¬((p ++ [q]).length ≠ (t ++ [[]]).length) := by simp [h]
    have hR : ¬(p.length ≠ t.length) := by omega
    simp only [recall_at_k, if_neg hL, if_neg hR, List.zip_append h,
      List.zip_cons_cons, List.zip_nil_right]
    rw [filterMap_append_single_none]
    simp [pySetList]
  · intro α _ p t k q h
    have hL : ¬((p ++ [q]).length ≠ (t ++ [[]]).length) := by simp [h]
    have hR : ¬(p.length ≠ t.length) := by omega
    simp only [precision_at_k, if_neg hL, if_neg hR, List.zip_append h,
      List.zip_cons_cons, List.zip_nil_right]
    rw [filterMap_append_single_none]
    simp [pySetList]
  · intro α _ p t q h
    have hL : ¬((p ++ [q]).length ≠ (t ++ [[]]).length) := by simp [h]
    have hR : ¬(p.length ≠ t.length) := by omega
    simp only [mean_reciprocal_rank, if_neg hL, if_neg hR, List.zip_append h,
      List.zip_cons_cons, List.zip_nil_right]
    rw [filterMap_append_single_none]
    simp [pySetList]
  · intro α _ log2 p t k q h
    have hL : ¬((p ++ [q]).length ≠ (t ++ [[]]).length) := by simp [h]
    have hR : ¬(p.length ≠ t.length) := by omega
    simp only [ndcg_at_k, if_neg hL, if_neg hR, List.zip_append h,
      List.zip_cons_cons, List.zip_nil_right]
    rw [filterMap_append_single_none]
    simp [pySetList]
  · simp +decide only [recall_at_k, List.length_cons, List.length_nil,
      pyInterCard, pySetList, List.foldl_cons, List.foldl_nil,
      List.zip_cons_cons, List.zip_nil_right, List.filterMap_cons,
      List.filterMap_nil, List.take_cons, List.take_nil, List.filter_cons,
      List.filter_nil, List.isEmpty_cons, List.isEmpty_nil, List.sum_cons,
      List.sum_nil]
    norm_num

/-- Witness for C4 at a concrete input: appending a query with empty
ground truth to the one-query input `[[1]] / [[1]]` does not change
`recall_at_k`. -/
theorem c4_metrics_exclude_empty_truth_witness :
    recall_at_k ([[(1 : ℕ)]] ++ [[2]]) ([[(1 : ℕ)]] ++ [[]]) 3 =
      recall_at_k [[(1 : ℕ)]] [[(1 : ℕ)]] 3 :=
  c4_metrics_exclude_empty_truth.1 ℕ inferInstance [[1]] [[1]] 3 [2] (by decide)

/-! ### Label tagger (`src/core/tagging.py`) -/

/-- Tagger state from `src/core/tagging.py`: `label_embeddings` maps a
group name to its label strings and their centroid embeddings. The
embedding space `E` (vectors produced by the external `encode_texts`) is
abstract. -/
structure LabelTagger (E : Type) where
  label_embeddings : List (String × (List String × List E))

/-- `LabelTagger.assign_labels` from `src/core/tagging.py` (lines 51-95),
for an input text whose (deterministic, externally computed) embedding is
`text_embedding` and with `batch_cosine_similarity` abstracted as `sim`:
unknown group yields `[]`; otherwise keep the labels whose similarity is
`≥ threshold` (inclusive; `zip` truncates exactly as Python's does), sort
descending by similarity (stable) and return at most `top_n`. -/
def assign_labels {E : Type} (tagger : LabelTagger E) (sim : E → E → ℚ)
    (text_embedding : E) (group_name : String) (top_n : ℕ) (threshold : ℚ) :
    List (String × ℚ) :=
  match dictGet tagger.label_embeddings group_name with
  | none => []
  | some label_data =>
    let labels := label_data.1
    let similarities := label_data.2.map (sim text_embedding)
    let results := (labels.zip similarities).filter
      (fun p => decide (threshold ≤ p.2))
    (sortByScoreDesc results).take top_n

theorem sortByScoreDesc_length {α β : Type} [LinearOrder β]
    (l : List (α × β)) : (sortByScoreDesc l).length = l.length :=
  (sortByScoreDesc_perm l).length_eq

/-! ### Claim C7: tagger threshold monotonicity -/

/-- C7: for a fixed tagger state, text embedding, group and `top_n`,
raising the similarity threshold never increases the number of returned
`(label, score)` pairs. -/
theorem c7_assign_labels_threshold_antitone {E : Type}
    (tagger : LabelTagger E) (sim : E → E → ℚ) (text_embedding : E)
    (group_name : String) (top_n : ℕ) (th_low th_high : ℚ)
    (h : th_low ≤ th_high) :
    (assign_labels tagger sim text_embedding group_name top_n th_high).length ≤
      (assign_labels tagger sim text_embedding group_name top_n th_low).length := by
  simp only [assign_labels]
  cases dictGet tagger.label_embeddings group_name with
  | none => exact le_refl _
  | some label_data =>
    simp only [List.length_take, sortByScoreDesc_length]
    have hf : ((label_data.1.zip (label_data.2.map (sim text_embedding))).filter
          (fun p => decide (th_high ≤ p.2))).length ≤
        ((label_data.1.zip (label_data.2.map (sim text_embedding))).filter
          (fun p => decide (th_low ≤ p.2))).length := by
      rw [← List.countP_eq_length_filter, ← List.countP_eq_length_filter]
      apply List.countP_mono_left
      intro p _ hp
      have := of_decide_eq_true hp
      exact decide_eq_true (le_trans h this)
    exact min_le_min (le_refl top_n) hf

/-- Witness for C7 at a concrete tagger with one group of two labels,
thresholds 0 and 1. -/
theorem c7_assign_labels_threshold_antitone_witness :
    (assign_labels
        (⟨[("cuisine", (["italian", "french"], [0, 1]))]⟩ : LabelTagger ℕ)
        (fun a b => if a = b then 1 else 0) 0 "cuisine" 5 1).length ≤
      (assign_labels
        (⟨[("cuisine", (["italian", "french"], [0, 1]))]⟩ : LabelTagger ℕ)
        (fun a b => if a = b then 1 else 0) 0 "cuisine" 5 0).length :=
  c7_assign_labels_threshold_antitone ⟨[("cuisine", (["italian", "french"], [0, 1]))]⟩
    (fun a b => if a = b then 1 else 0) 0 "cuisine" 5 0 1 (by decide)

/-! ### Text normalizer (`src/core/normalize.py`)

Python strings are sequences of Unicode code points, modelled as
`List ℕ`. `str.strip()` trims Python's whitespace code points;
`str.lower()` is the Unicode lowercase table, of which the normalizer
only exercises the cased ASCII range (the Arabic ranges it manipulates
are caseless), so the table is modelled on that range. -/

/-- Code points Python's `str.strip()` treats as whitespace. -/
def isPySpaceChar (c : ℕ) : Bool :=
  decide ((9 ≤ c ∧ c ≤ 13) ∨ (28 ≤ c ∧ c ≤ 31) ∨ c = 32 ∨ c = 133 ∨
    c = 160 ∨ c = 5760 ∨ (8192 ≤ c ∧ c ≤ 8202) ∨ c = 8232 ∨ c = 8233 ∨
    c = 8239 ∨ c = 8287 ∨ c = 12288)

/-- Python `str.strip()`: drop whitespace from both ends. -/
def pyStrip (s : List ℕ) : List ℕ :=
  ((s.dropWhile isPySpaceChar).reverse.dropWhile isPySpaceChar).reverse

/-- Python `str.lower()` on the code-point range the normalizer exercises
(`A`-`Z`; every other code point the pipeline produces is caseless). -/
def pyLowerChar (c : ℕ) : ℕ := if 65 ≤ c ∧ c ≤ 90 then c + 32 else c

/-- `str.translate(AR_DIGITS)`: Arabic-Indic digits U+0660-U+0669 to
ASCII digits. -/
def arDigitChar (c : ℕ) : ℕ := if 1632 ≤ c ∧ c ≤ 1641 then c - 1632 + 48 else c

/-- The `AR_DIAC` regex class `[\u0617-\u061A\u064B-\u0652]`. -/
def isArDiacChar (c : ℕ) : Bool :=
  decide ((1559 ≤ c ∧ c ≤ 1562) ∨ (1611 ≤ c ∧ c ≤ 1618))

/-- The `ALEF` regex substitution: U+0622/U+0623/U+0625 to U+0627. -/
def alefChar (c : ℕ) : ℕ := if c = 1570 ∨ c = 1571 ∨ c = 1573 then 1575 else c

/-- `s.replace(U+0649, U+064A)`: Alif Maqsura to Yaa. -/
def maqsuraChar (c : ℕ) : ℕ := if c = 1609 then 1610 else c

/-- `normalize_text` from `src/core/normalize.py` (lines 14-52): falsy
(empty) input yields empty; then strip+lower, digit mapping, optional
diacritic removal, Alef unification, Maqsura replacement, in source
order. -/
def normalize_text (s : List ℕ) (remove_diacritics : Bool := true) : List ℕ :=
  if s.isEmpty then []
  else
    let s1 := (pyStrip s).map pyLowerChar
    let s2 := s1.map arDigitChar
    let s3 := if remove_diacritics then s2.filter (fun c => !(isArDiacChar c))
      else s2
    let s4 := s3.map alefChar
    s4.map maqsuraChar


theorem isEmpty_false_of_ne_nil {γ : Type} {l : List γ} (h : l ≠ []) :
    l.isEmpty = false := by
  cases l with
  | nil => exact absurd rfl h
  | cons a t => rfl

theorem isPySpaceChar_pyLowerChar (c : ℕ) :
    isPySpaceChar (pyLowerChar c) = isPySpaceChar c := by
  unfold pyLowerChar
  split
  · simp only [isPySpaceChar]; rw [decide_eq_decide]; omega
  · rfl

theorem isPySpaceChar_arDigitChar (c : ℕ) :
    isPySpaceChar (arDigitChar c) = isPySpaceChar c := by
  unfold arDigitChar
  split
  · simp only [isPySpaceChar]; rw [decide_eq_decide]; omega
  · rfl

theorem isPySpaceChar_alefChar (c : ℕ) :
    isPySpaceChar (alefChar c) = isPySpaceChar c := by
  unfold alefChar
  split
  · simp only [isPySpaceChar]; rw [decide_eq_decide]; omega
  · rfl

theorem isPySpaceChar_maqsuraChar (c : ℕ) :
    isPySpaceChar (maqsuraChar c) = isPySpaceChar c := by
  unfold maqsuraChar
  split
  · simp only [isPySpaceChar]; rw [decide_eq_decide]; omega
  · rfl

/-- Every code point the normalization pipeline emits is a fixed point of
each of its per-character maps. -/
theorem charFix (c : ℕ) :
    pyLowerChar (maqsuraChar (alefChar (arDigitChar (pyLowerChar c)))) =
      maqsuraChar (alefChar (arDigitChar (pyLowerChar c))) ∧
    arDigitChar (maqsuraChar (alefChar (arDigitChar (pyLowerChar c)))) =
      maqsuraChar (alefChar (arDigitChar (pyLowerChar c))) ∧
    alefChar (maqsuraChar (alefChar (arDigitChar (pyLowerChar c)))) =
      maqsuraChar (alefChar (arDigitChar (pyLowerChar c))) ∧
    maqsuraChar (maqsuraChar (alefChar (arDigitChar (pyLowerChar c)))) =
      maqsuraChar (alefChar (arDigitChar (pyLowerChar c))) := by
  unfold pyLowerChar arDigitChar alefChar maqsuraChar
  split_ifs <;> omega

theorem charDiacPres {e : ℕ} (h : isArDiacChar e = false) :
    isArDiacChar (maqsuraChar (alefChar e)) = false := by
  simp only [isArDiacChar, decide_eq_false_iff_not] at h ⊢
  unfold alefChar maqsuraChar
  split_ifs <;> omega

theorem dropWhile_cons_head_not {p : ℕ → Bool} {a : ℕ} {t : List ℕ}
    (h : List.dropWhile p (a :: t) = a :: t) : p a = false := by
  cases hpa : p a with
  | false => rfl
  | true =>
    rw [List.dropWhile_cons, if_pos hpa] at h
    have hlen := congrArg List.length h
    have hle := (List.dropWhile_sublist (p := p) (l := t)).length_le
    simp only [List.length_cons] at hlen
    omega

theorem noLead_reverse_strip {p : ℕ → Bool} :
    ∀ m : List ℕ, List.dropWhile p m = m →
      List.dropWhile p (List.dropWhile p m.reverse).reverse =
        (List.dropWhile p m.reverse).reverse := by
  intro m hm
  cases m with
  | nil => simp
  | cons a t =>
    have hpa : p a = false := dropWhile_cons_head_not hm
    rw [List.reverse_cons, List.dropWhile_append]
    split
    · simp [List.dropWhile_cons, hpa]
    · rw [List.reverse_append]
      simp [List.dropWhile_cons, hpa]

theorem pyStrip_noLead (l : List ℕ) :
    List.dropWhile isPySpaceChar (pyStrip l) = pyStrip l :=
  noLead_reverse_strip (List.dropWhile isPySpaceChar l)
    (List.dropWhile_idempotent _ _)

theorem pyStrip_idem (l : List ℕ) : pyStrip (pyStrip l) = pyStrip l := by
  have h1 := pyStrip_noLead l
  show ((List.dropWhile isPySpaceChar (pyStrip l)).reverse.dropWhile
      isPySpaceChar).reverse = pyStrip l
  rw [h1]
  have h2 : (pyStrip l).reverse = List.dropWhile isPySpaceChar
      (List.dropWhile isPySpaceChar l).reverse := by
    unfold pyStrip; rw [List.reverse_reverse]
  rw [h2, List.dropWhile_idempotent, ← h2, List.reverse_reverse]

theorem pyStrip_map {f : ℕ → ℕ}
    (hf : ∀ c, isPySpaceChar (f c) = isPySpaceChar c) (l : List ℕ) :
    pyStrip (l.map f) = (pyStrip l).map f := by
  have hcomp : (isPySpaceChar ∘ f) = isPySpaceChar := funext hf
  unfold pyStrip
  rw [List.dropWhile_map, hcomp, ← List.map_reverse, List.dropWhile_map,
    hcomp, ← List.map_reverse]

theorem map_fix {f : ℕ → ℕ} :
    ∀ {l : List ℕ}, (∀ a ∈ l, f a = a) → l.map f = l := by
  intro l h
  induction l with
  | nil => rfl
  | cons a t ih =>
    simp only [List.map_cons]
    rw [h a (by simp), ih (fun x hx => h x (by simp [hx]))]

/-- The expanded form of `normalize_text` on non-empty input, diacritic
stripping off. -/
theorem normalize_text_expand_false {s : List ℕ} (hs : s ≠ []) :
    normalize_text s false =
      ((((pyStrip s).map pyLowerChar).map arDigitChar).map alefChar).map
        maqsuraChar := by
  unfold normalize_text
  rw [isEmpty_false_of_ne_nil hs]
  simp

/-- The expanded form of `normalize_text` on non-empty input, diacritic
stripping on. -/
theorem normalize_text_expand_true {s : List ℕ} (hs : s ≠ []) :
    normalize_text s true =
      (((((pyStrip s).map pyLowerChar).map arDigitChar).filter
          (fun c => !(isArDiacChar c))).map alefChar).map maqsuraChar := by
  unfold normalize_text
  rw [isEmpty_false_of_ne_nil hs]
  simp

/-- Core of C9 (amended): `normalize_text` is idempotent whenever its
output is already whitespace-stripped. -/
theorem normalize_idem_of_stripped (s : List ℕ) (b : Bool)
    (hstrip : pyStrip (normalize_text s b) = normalize_text s b) :
    normalize_text (normalize_text s b) b = normalize_text s b := by
  by_cases hs : s = []
  · subst hs
    cases b <;> rfl
  · by_cases hyE : normalize_text s b = []
    · rw [hyE]
      cases b <;> rfl
    · cases b with
      | false =>
        have hmem : ∀ x ∈ normalize_text s false,
            pyLowerChar x = x ∧ arDigitChar x = x ∧ alefChar x = x ∧
            maqsuraChar x = x := by
          intro x hx
          rw [normalize_text_expand_false hs] at hx
          simp only [List.mem_map] at hx
          obtain ⟨c1, hc1, rfl⟩ := hx
          obtain ⟨c2, hc2, rfl⟩ := hc1
          obtain ⟨c3, hc3, rfl⟩ := hc2
          obtain ⟨c, hc, rfl⟩ := hc3
          exact charFix c
        rw [normalize_text_expand_false hyE, hstrip,
          map_fix (fun a ha => (hmem a ha).1),
          map_fix (fun a ha => (hmem a ha).2.1),
          map_fix (fun a ha => (hmem a ha).2.2.1),
          map_fix (fun a ha => (hmem a ha).2.2.2)]
      | true =>
        have hmem : ∀ x ∈ normalize_text s true,
            (pyLowerChar x = x ∧ arDigitChar x = x ∧ alefChar x = x ∧
            maqsuraChar x = x) ∧ isArDiacChar x = false := by
          intro x hx
          rw [normalize_text_expand_true hs] at hx
          simp only [List.mem_map, List.mem_filter] at hx
          obtain ⟨c1, hc1, rfl⟩ := hx
          obtain ⟨e, ⟨he, hde⟩, rfl⟩ := hc1
          obtain ⟨c3, hc3, rfl⟩ := he
          obtain ⟨c, hc, rfl⟩ := hc3
          have hdiac : isArDiacChar (arDigitChar (pyLowerChar c)) = false := by
            simpa using hde
          exact ⟨charFix c, charDiacPres hdiac⟩
        rw [normalize_text_expand_true hyE, hstrip,
          map_fix (fun a ha => (hmem a ha).1.1),
          map_fix (fun a ha => (hmem a ha).1.2.1),
          List.filter_eq_self.2 (fun a ha => by
            rw [(hmem a ha).2]; rfl),
          map_fix (fun a ha => (hmem a ha).1.2.2.1),
          map_fix (fun a ha => (hmem a ha).1.2.2.2)]

/-! ### Claim C9: normalizer idempotence -/

/-- C9 counterexample: on the three-code-point input `a`, space, U+064B
(FATHATAN) with diacritic stripping on, removing the diacritic exposes a
trailing space that the already-performed `strip()` no longer removes, so
a second normalization differs (`a` + space vs `a`). -/
theorem c9_normalize_not_idempotent :
    normalize_text (normalize_text [97, 32, 1611] true) true ≠
      normalize_text [97, 32, 1611] true := by decide

/-- C9 (amended): the normalizer is idempotent with diacritic stripping
off; with either flag value it is idempotent on every input whose
normalized form carries no leading or trailing whitespace (the
counterexample is exactly the excluded situation: diacritic removal
exposing edge whitespace). -/
theorem c9_normalize_idempotent_amended :
    (∀ s : List ℕ, normalize_text (normalize_text s false) false =
      normalize_text s false) ∧
    (∀ (s : List ℕ) (b : Bool),
      pyStrip (normalize_text s b) = normalize_text s b →
      normalize_text (normalize_text s b) b = normalize_text s b) := by
  constructor
  · intro s
    apply normalize_idem_of_stripped
    by_cases hs : s = []
    · subst hs; rfl
    · rw [normalize_text_expand_false hs]
      rw [pyStrip_map isPySpaceChar_maqsuraChar,
        pyStrip_map isPySpaceChar_alefChar,
        pyStrip_map isPySpaceChar_arDigitChar,
        pyStrip_map isPySpaceChar_pyLowerChar, pyStrip_idem]
  · intro s b h
    exact normalize_idem_of_stripped s b h

/-- Witness for C9 (amended) at the concrete input `a` with diacritic
stripping on. -/
theorem c9_normalize_idempotent_amended_witness :
    normalize_text (normalize_text [97] true) true = normalize_text [97] true :=
  c9_normalize_idempotent_amended.2 [97] true (by decide)


/-! ### Content recommender (`src/core/recommend.py`)

The embedding space `E` and `batch_cosine_similarity` are abstract (`sim`),
as is the mean-then-renormalize profile computation (`profileOf`); every
property below holds for all of them. -/

/-- `ContentBasedRecommender`'s mutable state: catalog ids, catalog
embeddings (`None` until `set_items`), `user_profiles` dict and the
`item_popularity` counter dict. -/
structure RecState (ID E : Type) where
  item_ids : List ID
  item_embeddings : Option (List E)
  user_profiles : List (String × E)
  item_popularity : List (ID × ℕ)

/-- `set_items` (lines 19-22). -/
def set_items {ID E : Type} (st : RecState ID E) (item_ids : List ID)
    (embeddings : List E) : RecState ID E :=
  { st with item_ids := item_ids, item_embeddings := some embeddings }

/-- `self.item_popularity[item_id] += 1` on the `defaultdict(int)`:
increment in place, or append a fresh count of 1. -/
def bumpPopularity {ID : Type} [DecidableEq ID] (pop : List (ID × ℕ))
    (x : ID) : List (ID × ℕ) :=
  if x ∈ pop.map Prod.fst then
    pop.map (fun p => if p.1 = x then (p.1, p.2 + 1) else p)
  else pop ++ [(x, 1)]

/-- `update_user_profile` (lines 24-58): for each interacted item found in
the catalog, bump its popularity and collect its embedding
(`embeddings[self.item_ids.index(id)]`, in range for a well-formed
catalog); if none was found, return with only the popularity updated
(matching the source, whose early `return` keeps the increments);
otherwise also store `profileOf` of the collected embeddings. -/
def update_user_profile {ID E : Type} [DecidableEq ID] (st : RecState ID E)
    (profileOf : List E → E) (user_id : String)
    (interacted_item_ids : List ID) : RecState ID E :=
  match st.item_embeddings with
  | none => st
  | some embs =>
    let pop := interacted_item_ids.foldl (fun pop i =>
      if i ∈ st.item_ids then bumpPopularity pop i else pop) st.item_popularity
    let interacted_embeddings := interacted_item_ids.filterMap (fun i =>
      if i ∈ st.item_ids then embs.get? (st.item_ids.indexOf i) else none)
    if interacted_embeddings.isEmpty then { st with item_popularity := pop }
    else
      { st with
        item_popularity := pop
        user_profiles :=
          dictInsert st.user_profiles user_id (profileOf interacted_embeddings) }

/-- The first loop of `_recommend_popular` (lines 164-169): walk the
popularity-sorted pairs, append non-excluded ones (as float scores) and
stop as soon as `k` results are collected (Python appends, then breaks on
`len(results) >= k`). -/
def popTakeLoop {ID : Type} [DecidableEq ID] (k : ℕ) (exclude_set : List ID) :
    List (ID × ℕ) → List (ID × ℚ) → List (ID × ℚ)
  | [], acc => acc
  | (i, count) :: rest, acc =>
    if i ∈ exclude_set then popTakeLoop k exclude_set rest acc
    else
      let acc' := acc ++ [(i, (count : ℚ))]
      if k ≤ acc'.length then acc' else popTakeLoop k exclude_set rest acc'

/-- The padding loop of `_recommend_popular` (lines 172-177): append
catalog items that are neither excluded nor already present, score `0.0`,
stopping at `k`. -/
def padLoop {ID : Type} [DecidableEq ID] (k : ℕ) (exclude_set : List ID) :
    List ID → List (ID × ℚ) → List (ID × ℚ)
  | [], acc => acc
  | i :: rest, acc =>
    if i ∉ exclude_set ∧ i ∉ acc.map Prod.fst then
      let acc' := acc ++ [(i, 0)]
      if k ≤ acc'.length then acc' else padLoop k exclude_set rest acc'
    else padLoop k exclude_set rest acc

/-- `_recommend_popular` (lines 149-179). -/
def recommend_popular {ID E : Type} [DecidableEq ID] (st : RecState ID E)
    (k : ℕ) (exclude_items : List ID) : RecState ID E × List (ID × ℚ) :=
  let exclude_set := pySetList exclude_items
  let popular := sortByScoreDesc st.item_popularity
  let results := popTakeLoop k exclude_set popular []
  let results :=
    if results.length < k ∧ ¬st.item_ids.isEmpty then
      padLoop k exclude_set st.item_ids results
    else results
  (st, results)

/-- `recommend_for_user` (lines 60-107): with a known profile and a set
catalog, score every catalog item by profile similarity, optionally add
`popularity_boost * count / max_count` (`max(values())` if any, else 1;
the boost loop writes through `enumerate(self.item_ids)`, in range for a
well-formed catalog), drop excluded items, sort descending, truncate to
`k`; otherwise fall back to popularity. -/
def recommend_for_user {ID E : Type} [DecidableEq ID] (st : RecState ID E)
    (sim : E → E → ℚ) (user_id : String) (k : ℕ) (exclude_items : List ID)
    (popularity_boost : ℚ) : RecState ID E × List (ID × ℚ) :=
  match dictGet st.user_profiles user_id, st.item_embeddings with
  | some user_profile, some embs =>
    let similarities := embs.map (sim user_profile)
    let similarities :=
      if 0 < popularity_boost then
        let max_pop : ℚ :=
          if st.item_popularity.isEmpty then 1
          else (((st.item_popularity.map Prod.snd).foldl max 0 : ℕ) : ℚ)
        (st.item_ids.zip similarities).map (fun p =>
          p.2 + popularity_boost *
            ((((dictGet st.item_popularity p.1).getD 0 : ℕ) : ℚ) / max_pop))
      else similarities
    let exclude_set := pySetList exclude_items
    let results := (st.item_ids.zip similarities).filter
      (fun p => decide (p.1 ∉ exclude_set))
    (st, (sortByScoreDesc results).take k)
  | _, _ => recommend_popular st k exclude_items

/-- `recommend_similar_items` (lines 109-147): empty result when the
catalog is unset or the item unknown; otherwise score every catalog item
against the item's embedding, optionally skip the item itself, sort
descending, truncate to `k`. -/
def recommend_similar_items {ID E : Type} [DecidableEq ID]
    (st : RecState ID E) (sim : E → E → ℚ) (item_id : ID) (k : ℕ)
    (exclude_self : Bool) : RecState ID E × List (ID × ℚ) :=
  match st.item_embeddings with
  | none => (st, [])
  | some embs =>
    if item_id ∉ st.item_ids then (st, [])
    else
      match embs.get? (st.item_ids.indexOf item_id) with
      | none => (st, [])
      | some item_embedding =>
        let similarities := embs.map (sim item_embedding)
        let results := (st.item_ids.zip similarities).filter
          (fun p => decide (¬(exclude_self = true ∧ p.1 = item_id)))
        (st, (sortByScoreDesc results).take k)

/-! ### Claim C10: read operations do not mutate recommender state -/

/-- C10: `recommend_for_user`, `recommend_similar_items` and the
popularity fallback return the state unchanged — catalog ids, catalog
embeddings, user profiles and popularity counts are all exactly as before
the call — while `set_items` and `update_user_profile` do mutate state on
suitable inputs. -/
theorem c10_recommend_reads_preserve_state :
    (∀ (ID E : Type) (_ : DecidableEq ID) (st : RecState ID E)
      (sim : E → E → ℚ) (user_id : String) (k : ℕ) (exclude_items : List ID)
      (popularity_boost : ℚ),
      (recommend_for_user st sim user_id k exclude_items popularity_boost).1 =
        st) ∧
    (∀ (ID E : Type) (_ : DecidableEq ID) (st : RecState ID E)
      (sim : E → E → ℚ) (item_id : ID) (k : ℕ) (exclude_self : Bool),
      (recommend_similar_items st sim item_id k exclude_self).1 = st) ∧
    (∀ (ID E : Type) (_ : DecidableEq ID) (st : RecState ID E) (k : ℕ)
      (exclude_items : List ID),
      (recommend_popular st k exclude_items).1 = st) ∧
    (∃ (st : RecState ℕ ℕ) (ids : List ℕ) (embs : List ℕ),
      set_items st ids embs ≠ st) ∧
    (∃ (st : RecState ℕ ℕ) (profileOf : List ℕ → ℕ) (u : String)
      (inter : List ℕ), update_user_profile st profileOf u inter ≠ st) := by
  refine ⟨?_, ?_, ?_, ?_, ?_⟩
  · intro ID E _ st sim user_id k exclude_items popularity_boost
    simp only [recommend_for_user]
    cases dictGet st.user_profiles user_id <;>
      cases st.item_embeddings <;> rfl
  · intro ID E _ st sim item_id k exclude_self
    rcases st with ⟨ids, embsO, profs, pop⟩
    cases embsO with
    | none => rfl
    | some embs =>
      simp only [recommend_similar_items]
      split
      · rfl
      · cases embs.get? (List.indexOf item_id ids) <;> rfl
  · intro ID E _ st k exclude_items
    rfl
  · refine ⟨⟨[], none, [], []⟩, [0], [0], fun h => ?_⟩
    have := congrArg RecState.item_ids h
    simp [set_items] at this
  · refine ⟨⟨[5], some [3], [], []⟩, fun _ => 0, "u", [5], fun h => ?_⟩
    have := congrArg RecState.item_popularity h
    simp [update_user_profile, bumpPopularity] at this


/-! ### Claim C8: top-k bounds of the recommendation operations -/

theorem popTakeLoop_length_le {ID : Type} [DecidableEq ID] (k : ℕ)
    (ex : List ID) :
    ∀ (l : List (ID × ℕ)) (acc : List (ID × ℚ)), acc.length < k →
      (popTakeLoop k ex l acc).length ≤ k := by
  intro l
  induction l with
  | nil => intro acc h; simpa [popTakeLoop] using Nat.le_of_lt h
  | cons p rest ih =>
    intro acc h
    obtain ⟨i, count⟩ := p
    simp only [popTakeLoop]
    split
    · exact ih acc h
    · split
      · simp only [List.length_append, List.length_cons, List.length_nil]
        omega
      · refine ih _ ?_
        rename_i hk
        simp only [List.length_append, List.length_cons, List.length_nil] at hk ⊢
        omega

theorem padLoop_length_le {ID : Type} [DecidableEq ID] (k : ℕ)
    (ex : List ID) :
    ∀ (l : List ID) (acc : List (ID × ℚ)), acc.length < k →
      (padLoop k ex l acc).length ≤ k := by
  intro l
  induction l with
  | nil => intro acc h; simpa [padLoop] using Nat.le_of_lt h
  | cons i rest ih =>
    intro acc h
    simp only [padLoop]
    split
    · split
      · simp only [List.length_append, List.length_cons, List.length_nil]
        omega
      · refine ih _ ?_
        rename_i hk
        simp only [List.length_append, List.length_cons, List.length_nil] at hk ⊢
        omega
    · exact ih acc h

theorem padLoop_covers {ID : Type} [DecidableEq ID] (k : ℕ) (ex : List ID) :
    ∀ (l : List ID) (acc : List (ID × ℚ)),
      (padLoop k ex l acc).length < k →
      (∀ x ∈ acc.map Prod.fst, x ∈ (padLoop k ex l acc).map Prod.fst) ∧
      (∀ i ∈ l, i ∉ ex → i ∈ (padLoop k ex l acc).map Prod.fst) := by
  intro l
  induction l with
  | nil =>
    intro acc _
    exact ⟨fun x hx => hx, fun i hi => absurd hi (List.not_mem_nil i)⟩
  | cons i rest ih =>
    intro acc h
    simp only [padLoop] at h ⊢
    by_cases hcond : i ∉ ex ∧ i ∉ acc.map Prod.fst
    · rw [if_pos hcond] at h ⊢
      by_cases hk : k ≤ (acc ++ [(i, (0 : ℚ))]).length
      · rw [if_pos hk] at h
        exact absurd h (by omega)
      · rw [if_neg hk] at h ⊢
        obtain ⟨haccp, hrest⟩ := ih (acc ++ [(i, 0)]) h
        refine ⟨fun x hx => haccp x (by simp [hx]), fun j hj hjex => ?_⟩
        rcases List.mem_cons.1 hj with rfl | hj
        · exact haccp j (by simp)
        · exact hrest j hj hjex
    · rw [if_neg hcond] at h ⊢
      obtain ⟨haccp, hrest⟩ := ih acc h
      refine ⟨haccp, fun j hj hjex => ?_⟩
      rcases List.mem_cons.1 hj with rfl | hj
      · rcases not_and_or.1 hcond with hc | hc
        · exact absurd hjex (by simpa using hc)
        · exact haccp j (by simpa using hc)
      · exact hrest j hj hjex

theorem zip_filter_fst_length {ID : Type} (pred : ID → Bool) :
    ∀ (ids : List ID) (sims : List ℚ), sims.length = ids.length →
      ((ids.zip sims).filter (fun p => pred p.1)).length =
        (ids.filter pred).length := by
  intro ids
  induction ids with
  | nil => intro sims _; simp
  | cons i rest ih =>
    intro sims h
    cases sims with
    | nil => simp at h
    | cons s srest =>
      simp only [List.length_cons] at h
      have hrec := ih srest (by omega)
      by_cases hp : pred i = true
      · simp [List.zip_cons_cons, List.filter_cons, hp, hrec]
      · simp [List.zip_cons_cons, List.filter_cons, hp, hrec]

theorem nodup_subset_length_le {ID : Type} [DecidableEq ID]
    {l m : List ID} (hn : l.Nodup) (hsub : ∀ x ∈ l, x ∈ m) :
    l.length ≤ m.length := by
  calc l.length = l.toFinset.card := (List.toFinset_card_of_nodup hn).symm
    _ ≤ m.toFinset.card := Finset.card_le_card (fun x hx =>
        List.mem_toFinset.2 (hsub x (List.mem_toFinset.1 hx)))
    _ ≤ m.length := m.toFinset_card_le

/-- The k-bound and exhaustion property of the popularity fallback, for
`k ≥ 1` and a duplicate-free catalog. -/
theorem recommend_popular_spec {ID E : Type} [DecidableEq ID]
    (st : RecState ID E) (k : ℕ) (excl : List ID) (hk : 1 ≤ k)
    (hnd : st.item_ids.Nodup) :
    ((recommend_popular st k excl).2).length ≤ k ∧
    (((recommend_popular st k excl).2).length < k →
      (st.item_ids.filter (fun x => decide (x ∉ excl))).length < k) := by
  simp only [recommend_popular]
  have hr1le : (popTakeLoop k (pySetList excl)
      (sortByScoreDesc st.item_popularity) []).length ≤ k :=
    popTakeLoop_length_le k _ _ [] (by simpa using hk)
  by_cases hc : (popTakeLoop k (pySetList excl)
      (sortByScoreDesc st.item_popularity) []).length < k ∧
      ¬st.item_ids.isEmpty = true
  · rw [if_pos hc]
    have hr2le := padLoop_length_le k (pySetList excl) st.item_ids _ hc.1
    refine ⟨hr2le, fun hlt => ?_⟩
    have hcov := (padLoop_covers k (pySetList excl) st.item_ids _ hlt).2
    have hsub : ∀ x ∈ st.item_ids.filter (fun x => decide (x ∉ excl)),
        x ∈ (padLoop k (pySetList excl) st.item_ids
          (popTakeLoop k (pySetList excl)
            (sortByScoreDesc st.item_popularity) [])).map Prod.fst := by
      intro x hx
      have hxl := List.mem_of_mem_filter hx
      have hxe : x ∉ excl := by simpa using List.of_mem_filter hx
      exact hcov x hxl (fun hmem => hxe (mem_pySetList.1 hmem))
    have hle := nodup_subset_length_le (hnd.filter _) hsub
    rw [List.length_map] at hle
    omega
  · rw [if_neg hc]
    refine ⟨hr1le, fun hlt => ?_⟩
    have hids : st.item_ids = [] := by
      by_contra hne
      exact hc ⟨hlt, by simp [isEmpty_false_of_ne_nil hne]⟩
    rw [hids]
    simpa using hk

/-- C8 counterexample: with one recorded interaction (item 5, count 3) the
popularity fallback at `k = 0` returns one result, not at most zero — the
source appends before checking `len(results) >= k`. -/
theorem c8_popular_k_zero_exceeds :
    ¬(((recommend_popular
        (⟨[], none, [], [(5, 3)]⟩ : RecState ℕ ℕ) 0 []).2).length ≤ 0) := by
  decide

/-- C8 (amended): for every `k ≥ 1` and duplicate-free catalog,
`recommend_for_user` (either path) and the popularity fallback return at
most `k` results and return fewer only if the catalog minus the excluded
items has fewer than `k` entries; `recommend_similar_items` satisfies the
same bound with the catalog minus (optionally) the item itself, provided
the catalog is set (consistent with its ids) and the item is in it. At
`k = 0` the popularity fallback can exceed `k` (see the counterexample),
and an unknown item id yields the empty, missing-data result. -/
theorem c8_recommend_topk_amended :
    (∀ (ID E : Type) (_ : DecidableEq ID) (st : RecState ID E)
      (sim : E → E → ℚ) (u : String) (k : ℕ) (excl : List ID) (boost : ℚ),
      1 ≤ k → st.item_ids.Nodup →
      (∀ embs, st.item_embeddings = some embs →
        embs.length = st.item_ids.length) →
      ((recommend_for_user st sim u k excl boost).2).length ≤ k ∧
      (((recommend_for_user st sim u k excl boost).2).length < k →
        (st.item_ids.filter (fun x => decide (x ∉ excl))).length < k)) ∧
    (∀ (ID E : Type) (_ : DecidableEq ID) (st : RecState ID E)
      (sim : E → E → ℚ) (item_id : ID) (k : ℕ) (exclude_self : Bool)
      (embs : List E),
      1 ≤ k → st.item_embeddings = some embs →
      embs.length = st.item_ids.length → item_id ∈ st.item_ids →
      ((recommend_similar_items st sim item_id k exclude_self).2).length ≤ k ∧
      (((recommend_similar_items st sim item_id k exclude_self).2).length < k →
        (st.item_ids.filter
          (fun x => decide (¬(exclude_self = true ∧ x = item_id)))).length < k)) ∧
    (∀ (ID E : Type) (_ : DecidableEq ID) (st : RecState ID E) (k : ℕ)
      (excl : List ID),
      1 ≤ k → st.item_ids.Nodup →
      ((recommend_popular st k excl).2).length ≤ k ∧
      (((recommend_popular st k excl).2).length < k →
        (st.item_ids.filter (fun x => decide (x ∉ excl))).length < k)) := by
  refine ⟨?_, ?_, ?_⟩
  · intro ID E _ st sim u k excl boost hk hnd hwf
    rcases hprof : dictGet st.user_profiles u with _ | profile
    · have : recommend_for_user st sim u k excl boost =
          recommend_popular st k excl := by
        simp only [recommend_for_user, hprof]
      rw [this]
      exact recommend_popular_spec st k excl hk hnd
    · rcases hemb : st.item_embeddings with _ | embs
      · have : recommend_for_user st sim u k excl boost =
            recommend_popular st k excl := by
          simp only [recommend_for_user, hprof, hemb]
        rw [this]
        exact recommend_popular_spec st k excl hk hnd
      · have hlen := hwf embs hemb
        have hres : (recommend_for_user st sim u k excl boost).2 =
            (sortByScoreDesc ((st.item_ids.zip
              (if 0 < boost then
                (st.item_ids.zip (embs.map (sim profile))).map (fun p =>
                  p.2 + boost *
                    ((((dictGet st.item_popularity p.1).getD 0 : ℕ) : ℚ) /
                      (if st.item_popularity.isEmpty then 1
                       else (((st.item_popularity.map Prod.snd).foldl
                         max 0 : ℕ) : ℚ))))
               else embs.map (sim profile))).filter
              (fun p => decide (p.1 ∉ pySetList excl)))).take k := by
          simp only [recommend_for_user, hprof, hemb]
        have hsims : (if 0 < boost then
            (st.item_ids.zip (embs.map (sim profile))).map (fun p =>
              p.2 + boost *
                ((((dictGet st.item_popularity p.1).getD 0 : ℕ) : ℚ) /
                  (if st.item_popularity.isEmpty then 1
                   else (((st.item_popularity.map Prod.snd).foldl
                     max 0 : ℕ) : ℚ))))
           else embs.map (sim profile)).length = st.item_ids.length := by
          split
          · simp [List.length_zip, hlen]
          · simp [hlen]
        rw [hres]
        have hflen := zip_filter_fst_length
          (fun x => decide (x ∉ pySetList excl)) st.item_ids _ hsims
        have hcong : st.item_ids.filter (fun x => decide (x ∉ pySetList excl)) =
            st.item_ids.filter (fun x => decide (x ∉ excl)) :=
          List.filter_congr (fun x _ => by
            simp [mem_pySetList])
        rw [List.length_take, sortByScoreDesc_length, hflen, hcong]
        constructor
        · exact min_le_left _ _
        · intro hlt
          omega
  · intro ID E _ st sim item_id k exclude_self embs hk hemb hlen hmem
    have hidx : st.item_ids.indexOf item_id < embs.length := by
      rw [hlen]
      exact List.indexOf_lt_length.2 hmem
    have hres : (recommend_similar_items st sim item_id k exclude_self).2 =
        (sortByScoreDesc ((st.item_ids.zip
          (embs.map (sim (embs.get ⟨st.item_ids.indexOf item_id, hidx⟩)))).filter
          (fun p => decide (¬(exclude_self = true ∧ p.1 = item_id))))).take k := by
      simp only [recommend_similar_items, hemb, if_neg (not_not_intro hmem),
        List.get?_eq_get hidx]
    rw [hres]
    have hflen := zip_filter_fst_length
      (fun x => decide (¬(exclude_self = true ∧ x = item_id))) st.item_ids
      (embs.map (sim (embs.get ⟨st.item_ids.indexOf item_id, hidx⟩)))
      (by simp [hlen])
    rw [List.length_take, sortByScoreDesc_length, hflen]
    constructor
    · exact min_le_left _ _
    · intro hlt
      omega
  · intro ID E _ st k excl hk hnd
    exact recommend_popular_spec st k excl hk hnd

/-- Witness for C8 (amended) at a concrete two-item catalog with one
recorded interaction and `k = 1`. -/
theorem c8_recommend_topk_amended_witness :
    ((recommend_popular
      (⟨[7, 8], none, [], [(7, 2)]⟩ : RecState ℕ ℕ) 1 []).2).length ≤ 1 :=
  (c8_recommend_topk_amended.2.2 ℕ ℕ inferInstance
    ⟨[7, 8], none, [], [(7, 2)]⟩ 1 [] (by decide) (by decide)).1


/-! ### Similarity clustering (`src/core/dedup.py`)

`batch_cosine_similarity` is abstracted as a pairwise matrix function
`sim : ℕ → ℕ → ℚ` over global row indices: the block-local matrix of the
source is exactly this function at the block's global indices. Python
dicts (`parent`, `rank`) are modelled as a key list plus total functions
updated pointwise; `find`'s unbounded recursion terminates in Python
because reachable parent chains are acyclic, and is given explicit fuel
here — every property proved below holds for arbitrary fuel. -/

/-- Pointwise function update, the dict write `d[a] = b`. -/
def fnUpdate {ID β : Type} [DecidableEq ID] (f : ID → β) (a : ID) (b : β) :
    ID → β :=
  fun x => if x = a then b else f x

/-- `UnionFind.__init__` state: `self.parent` and `self.rank`. -/
structure UnionFind (ID : Type) where
  parentKeys : List ID
  parentF : ID → ID
  rankF : ID → ℕ

/-- `UnionFind.find` (lines 17-27) with fuel: insert unknown keys as their
own root; follow and compress the parent chain otherwise. -/
def findAux {ID : Type} [DecidableEq ID] :
    ℕ → UnionFind ID → ID → UnionFind ID × ID
  | 0, uf, x => (uf, x)
  | fuel + 1, uf, x =>
    if x ∉ uf.parentKeys then
      ({ parentKeys := uf.parentKeys ++ [x],
         parentF := fnUpdate uf.parentF x x,
         rankF := fnUpdate uf.rankF x 0 }, x)
    else if uf.parentF x = x then (uf, x)
    else
      let r := findAux fuel uf (uf.parentF x)
      ({ r.1 with parentF := fnUpdate r.1.parentF x r.2 }, r.2)

/-- `UnionFind.find` with the fuel the acyclic chains need. -/
def find {ID : Type} [DecidableEq ID] (uf : UnionFind ID) (x : ID) :
    UnionFind ID × ID :=
  findAux (uf.parentKeys.length + 1) uf x

/-- `UnionFind.union` (lines 29-44): find both roots, then union by rank
(ties attach the second root under the first and bump its rank). -/
def union {ID : Type} [DecidableEq ID] (uf : UnionFind ID) (x y : ID) :
    UnionFind ID :=
  let fx := find uf x
  let fy := find fx.1 y
  let uf2 := fy.1
  let root_x := fx.2
  let root_y := fy.2
  if root_x = root_y then uf2
  else if uf2.rankF root_x < uf2.rankF root_y then
    { uf2 with parentF := fnUpdate uf2.parentF root_x root_y }
  else if uf2.rankF root_y < uf2.rankF root_x then
    { uf2 with parentF := fnUpdate uf2.parentF root_y root_x }
  else
    { uf2 with parentF := fnUpdate uf2.parentF root_y root_x,
               rankF := fnUpdate uf2.rankF root_x (uf2.rankF root_x + 1) }

/-- `defaultdict(list)` append: `d[key].append(v)`, creating the key at
the end in insertion order. -/
def assocAppend {κ γ : Type} [DecidableEq κ] :
    List (κ × List γ) → κ → γ → List (κ × List γ)
  | [], key, v => [(key, [v])]
  | (k0, vs) :: rest, key, v =>
    if k0 = key then (k0, vs ++ [v]) :: rest
    else (k0, vs) :: assocAppend rest key v

/-- `UnionFind.get_clusters` (lines 46-52): group the snapshot of the keys
by their (path-compressing) find root. -/
def get_clusters {ID : Type} [DecidableEq ID] (uf : UnionFind ID) :
    UnionFind ID × List (ID × List ID) :=
  uf.parentKeys.foldl (fun st item =>
    let fr := find st.1 item
    (fr.1, assocAppend st.2 fr.2 item)) (uf, [])

/-- The `for i in range(n): for j in range(i+1, n)` upper-triangular pair
enumeration, as element pairs in loop order. -/
def listPairsUT {γ : Type} : List γ → List (γ × γ)
  | [] => []
  | x :: xs => xs.map (fun y => (x, y)) ++ listPairsUT xs

/-- The initialization loop of `deduplicate_items` (lines 76-78):
`for item_id in item_ids: uf.find(item_id)`. -/
def ufInit {ID : Type} [DecidableEq ID] (item_ids : List ID) : UnionFind ID :=
  item_ids.foldl (fun uf x => (find uf x).1) ⟨[], fun x => x, fun _ => 0⟩

/-- The union pass over candidate pairs carrying their global matrix
indices: `if sim_matrix[i, j] >= sim_threshold: uf.union(ids[i], ids[j])`. -/
def unionPairs {ID : Type} [DecidableEq ID] (sim : ℕ → ℕ → ℚ) (th : ℚ)
    (uf : UnionFind ID) (pairs : List ((ℕ × ID) × (ℕ × ID))) : UnionFind ID :=
  pairs.foldl (fun uf pq =>
    if th ≤ sim pq.1.1 pq.2.1 then union uf pq.1.2 pq.2.2 else uf) uf

/-- The blocked branch of `deduplicate_items` (lines 81-102): group
`(index, id)` pairs by blocking key, skip blocks of fewer than two items,
and union the within-block pairs above threshold. -/
def processBlocks {ID β : Type} [DecidableEq ID] [DecidableEq β]
    (sim : ℕ → ℕ → ℚ) (th : ℚ) (uf : UnionFind ID) (item_ids : List ID)
    (blocks : List β) : UnionFind ID :=
  let block_groups := ((item_ids.zip blocks).enum).foldl
    (fun acc ip => assocAppend acc ip.2.2 (ip.1, ip.2.1)) []
  block_groups.foldl (fun uf g =>
    if g.2.length < 2 then uf
    else unionPairs sim th uf (listPairsUT g.2)) uf

/-- The union-find after `deduplicate_items`'s initialization and union
passes. Python's `if blocks:` is falsy for both `None` and the empty
list, giving the unblocked all-pairs branch. -/
def dedupUF {ID β : Type} [DecidableEq ID] [DecidableEq β]
    (item_ids : List ID) (sim : ℕ → ℕ → ℚ) (sim_threshold : ℚ)
    (blocks : Option (List β)) : UnionFind ID :=
  let uf0 := ufInit item_ids
  match blocks with
  | some bl =>
    if ¬bl.isEmpty then processBlocks sim sim_threshold uf0 item_ids bl
    else unionPairs sim sim_threshold uf0 (listPairsUT item_ids.enum)
  | none => unionPairs sim sim_threshold uf0 (listPairsUT item_ids.enum)

/-- The cluster map read out (before the `> 1` filter) by
`deduplicate_items`. -/
def raw_clusters {ID β : Type} [DecidableEq ID] [DecidableEq β]
    (item_ids : List ID) (sim : ℕ → ℕ → ℚ) (sim_threshold : ℚ)
    (blocks : Option (List β)) : List (ID × List ID) :=
  (get_clusters (dedupUF item_ids sim sim_threshold blocks)).2

/-- `deduplicate_items` (lines 55-122): the clusters with more than one
member. -/
def deduplicate_items {ID β : Type} [DecidableEq ID] [DecidableEq β]
    (item_ids : List ID) (sim : ℕ → ℕ → ℚ) (sim_threshold : ℚ)
    (blocks : Option (List β)) : List (ID × List ID) :=
  (raw_clusters item_ids sim sim_threshold blocks).filter
    (fun p => decide (1 < p.2.length))


/-- Parent pointers never cross blocking keys. -/
def BlockInv {ID κ : Type} (bk : ID → κ) (uf : UnionFind ID) : Prop :=
  ∀ x, bk (uf.parentF x) = bk x

/-- The key set is closed under the parent map. -/
def KeysClosed {ID : Type} (uf : UnionFind ID) : Prop :=
  ∀ x ∈ uf.parentKeys, uf.parentF x ∈ uf.parentKeys

theorem findAux_blockInv {ID κ : Type} [DecidableEq ID] (bk : ID → κ) :
    ∀ (fuel : ℕ) (uf : UnionFind ID) (x : ID), BlockInv bk uf →
      BlockInv bk (findAux fuel uf x).1 ∧
      bk ((findAux fuel uf x).2) = bk x := by
  intro fuel
  induction fuel with
  | zero => intro uf x h; exact ⟨h, rfl⟩
  | succ fuel ih =>
    intro uf x h
    simp only [findAux]
    split
    · refine ⟨?_, rfl⟩
      intro y
      simp only [fnUpdate]
      split
      · rename_i hy; rw [hy]
      · exact h y
    · split
      · exact ⟨h, rfl⟩
      · obtain ⟨h1, h2⟩ := ih uf (uf.parentF x) h
        refine ⟨?_, by rw [h2, h x]⟩
        intro y
        simp only [fnUpdate]
        split
        · rename_i hy; rw [hy, h2, h x]
        · exact h1 y

theorem findAux_keys_mem {ID : Type} [DecidableEq ID] :
    ∀ (fuel : ℕ) (uf : UnionFind ID) (x : ID), x ∈ uf.parentKeys →
      KeysClosed uf →
      (findAux fuel uf x).1.parentKeys = uf.parentKeys ∧
      KeysClosed (findAux fuel uf x).1 ∧
      (findAux fuel uf x).2 ∈ uf.parentKeys := by
  intro fuel
  induction fuel with
  | zero => intro uf x hx hc; exact ⟨rfl, hc, hx⟩
  | succ fuel ih =>
    intro uf x hx hc
    simp only [findAux]
    rw [if_neg (not_not_intro hx)]
    split
    · exact ⟨rfl, hc, hx⟩
    · obtain ⟨hk, hcl, hr⟩ := ih uf (uf.parentF x) (hc x hx) hc
      refine ⟨hk, ?_, hr⟩
      intro y hy
      simp only [fnUpdate] at *
      split
      · rw [hk]; exact hr
      · exact hcl y hy

theorem find_keys_mem {ID : Type} [DecidableEq ID] {uf : UnionFind ID}
    {x : ID} (hx : x ∈ uf.parentKeys) (hc : KeysClosed uf) :
    (find uf x).1.parentKeys = uf.parentKeys ∧
    KeysClosed (find uf x).1 ∧ (find uf x).2 ∈ uf.parentKeys :=
  findAux_keys_mem _ uf x hx hc

theorem find_keys_new {ID : Type} [DecidableEq ID] {uf : UnionFind ID}
    {x : ID} (hx : x ∉ uf.parentKeys) (hc : KeysClosed uf) :
    (find uf x).1.parentKeys = uf.parentKeys ++ [x] ∧
    KeysClosed (find uf x).1 := by
  simp only [find, findAux]
  rw [if_pos hx]
  refine ⟨rfl, ?_⟩
  intro y hy
  simp only [fnUpdate]
  split
  · simp
  · rename_i hne
    rcases List.mem_append.1 hy with hy | hy
    · exact List.mem_append.2 (Or.inl (hc y hy))
    · simp only [List.mem_singleton] at hy
      exact absurd hy hne

theorem find_blockInv {ID κ : Type} [DecidableEq ID] (bk : ID → κ)
    {uf : UnionFind ID} (x : ID) (h : BlockInv bk uf) :
    BlockInv bk (find uf x).1 ∧ bk ((find uf x).2) = bk x :=
  findAux_blockInv bk _ uf x h

theorem union_blockInv {ID κ : Type} [DecidableEq ID] (bk : ID → κ)
    {uf : UnionFind ID} {x y : ID} (h : BlockInv bk uf)
    (hxy : bk x = bk y) : BlockInv bk (union uf x y) := by
  obtain ⟨h1, hrx⟩ := find_blockInv bk x h
  obtain ⟨h2, hry⟩ := find_blockInv bk y h1
  have hroots : bk ((find (find uf x).1 y).2) = bk ((find uf x).2) := by
    rw [hrx, hry, hxy]
  simp only [union]
  split
  · exact h2
  · split
    · intro z
      simp only [fnUpdate]
      split
      · rename_i hz; rw [hz, hroots]
      · exact h2 z
    · split
      · intro z
        simp only [fnUpdate]
        split
        · rename_i hz; rw [hz, hroots]
        · exact h2 z
      · intro z
        simp only [fnUpdate]
        split
        · rename_i hz; rw [hz, hroots]
        · exact h2 z

theorem union_keys {ID : Type} [DecidableEq ID] {uf : UnionFind ID}
    {x y : ID} (hx : x ∈ uf.parentKeys) (hy : y ∈ uf.parentKeys)
    (hc : KeysClosed uf) :
    (union uf x y).parentKeys = uf.parentKeys ∧ KeysClosed (union uf x y) := by
  obtain ⟨hk1, hc1, hr1⟩ := find_keys_mem hx hc
  obtain ⟨hk2, hc2, hr2⟩ := find_keys_mem (x := y) (by rw [hk1]; exact hy) hc1
  have hkeys : (find (find uf x).1 y).1.parentKeys = uf.parentKeys := by
    rw [hk2, hk1]
  have hrx : (find uf x).2 ∈ (find (find uf x).1 y).1.parentKeys := by
    rw [hkeys]; exact hr1
  have hry : (find (find uf x).1 y).2 ∈ (find (find uf x).1 y).1.parentKeys := by
    rw [hkeys, ← hk1]; exact hr2
  simp only [union]
  split
  · exact ⟨hkeys, hc2⟩
  · split
    · refine ⟨hkeys, ?_⟩
      intro z hz
      simp only [fnUpdate]
      split
      · exact hry
      · exact hc2 z hz
    · split
      · refine ⟨hkeys, ?_⟩
        intro z hz
        simp only [fnUpdate]
        split
        · exact hrx
        · exact hc2 z hz
      · refine ⟨hkeys, ?_⟩
        intro z hz
        simp only [fnUpdate]
        split
        · exact hrx
        · exact hc2 z hz


theorem unionPairs_blockInv {ID κ : Type} [DecidableEq ID] (bk : ID → κ)
    (sim : ℕ → ℕ → ℚ) (th : ℚ) :
    ∀ (pairs : List ((ℕ × ID) × (ℕ × ID))) (uf : UnionFind ID),
      (∀ pq ∈ pairs, bk pq.1.2 = bk pq.2.2) → BlockInv bk uf →
      BlockInv bk (unionPairs sim th uf pairs) := by
  intro pairs
  induction pairs with
  | nil => intro uf _ h; exact h
  | cons pq rest ih =>
    intro uf hp h
    simp only [unionPairs, List.foldl_cons]
    by_cases hs : th ≤ sim pq.1.1 pq.2.1
    · rw [if_pos hs]
      exact ih _ (fun q hq => hp q (List.mem_cons_of_mem _ hq))
        (union_blockInv bk h (hp pq (List.mem_cons_self _ _)))
    · rw [if_neg hs]
      exact ih _ (fun q hq => hp q (List.mem_cons_of_mem _ hq)) h

theorem unionPairs_keys {ID : Type} [DecidableEq ID]
    (sim : ℕ → ℕ → ℚ) (th : ℚ) :
    ∀ (pairs : List ((ℕ × ID) × (ℕ × ID))) (uf : UnionFind ID),
      (∀ pq ∈ pairs, pq.1.2 ∈ uf.parentKeys ∧ pq.2.2 ∈ uf.parentKeys) →
      KeysClosed uf →
      (unionPairs sim th uf pairs).parentKeys = uf.parentKeys ∧
      KeysClosed (unionPairs sim th uf pairs) := by
  intro pairs
  induction pairs with
  | nil => intro uf _ hc; exact ⟨rfl, hc⟩
  | cons pq rest ih =>
    intro uf hp hc
    simp only [unionPairs, List.foldl_cons]
    by_cases hs : th ≤ sim pq.1.1 pq.2.1
    · rw [if_pos hs]
      obtain ⟨hk, hcl⟩ := union_keys (hp pq (List.mem_cons_self _ _)).1
        (hp pq (List.mem_cons_self _ _)).2 hc
      obtain ⟨hk2, hcl2⟩ := ih (union uf pq.1.2 pq.2.2)
        (fun q hq => by
          rw [hk]
          exact hp q (List.mem_cons_of_mem _ hq)) hcl
      rw [hk] at hk2
      exact ⟨hk2, hcl2⟩
    · rw [if_neg hs]
      exact ih uf (fun q hq => hp q (List.mem_cons_of_mem _ hq)) hc

theorem foldFind_keys {ID : Type} [DecidableEq ID] :
    ∀ (ids : List ID) (uf : UnionFind ID), KeysClosed uf →
      (ids.foldl (fun uf x => (find uf x).1) uf).parentKeys =
        ids.foldl (fun acc x => if x ∈ acc then acc else acc ++ [x])
          uf.parentKeys ∧
      KeysClosed (ids.foldl (fun uf x => (find uf x).1) uf) := by
  intro ids
  induction ids with
  | nil => intro uf hc; exact ⟨rfl, hc⟩
  | cons x rest ih =>
    intro uf hc
    simp only [List.foldl_cons]
    by_cases hx : x ∈ uf.parentKeys
    · obtain ⟨hk, hcl, _⟩ := find_keys_mem hx hc
      obtain ⟨hk2, hcl2⟩ := ih (find uf x).1 hcl
      rw [if_pos hx]
      exact ⟨by rw [hk2, hk], hcl2⟩
    · obtain ⟨hk, hcl⟩ := find_keys_new hx hc
      obtain ⟨hk2, hcl2⟩ := ih (find uf x).1 hcl
      rw [if_neg hx]
      exact ⟨by rw [hk2, hk], hcl2⟩

theorem ufInit_keys {ID : Type} [DecidableEq ID] (item_ids : List ID) :
    (ufInit item_ids).parentKeys = pySetList item_ids ∧
    KeysClosed (ufInit item_ids) := by
  have h := foldFind_keys item_ids ⟨[], fun x => x, fun _ => 0⟩
    (fun x hx => absurd hx (List.not_mem_nil x))
  exact ⟨h.1, h.2⟩

theorem foldFind_blockInv {ID κ : Type} [DecidableEq ID] (bk : ID → κ) :
    ∀ (ids : List ID) (uf : UnionFind ID), BlockInv bk uf →
      BlockInv bk (ids.foldl (fun uf x => (find uf x).1) uf) := by
  intro ids
  induction ids with
  | nil => intro uf h; exact h
  | cons x rest ih =>
    intro uf h
    simp only [List.foldl_cons]
    exact ih _ (find_blockInv bk x h).1

theorem ufInit_blockInv {ID κ : Type} [DecidableEq ID] (bk : ID → κ)
    (item_ids : List ID) : BlockInv bk (ufInit item_ids) :=
  foldFind_blockInv bk item_ids _ (fun _ => rfl)

theorem listPairsUT_mem {γ : Type} :
    ∀ (l : List γ) (pq : γ × γ), pq ∈ listPairsUT l → pq.1 ∈ l ∧ pq.2 ∈ l := by
  intro l
  induction l with
  | nil => intro pq h; exact absurd h (List.not_mem_nil pq)
  | cons x xs ih =>
    intro pq h
    simp only [listPairsUT] at h
    rcases List.mem_append.1 h with h | h
    · rcases List.mem_map.1 h with ⟨y, hy, rfl⟩
      exact ⟨List.mem_cons_self _ _, List.mem_cons_of_mem _ hy⟩
    · obtain ⟨h1, h2⟩ := ih pq h
      exact ⟨List.mem_cons_of_mem _ h1, List.mem_cons_of_mem _ h2⟩

theorem assocAppend_mem {κ γ : Type} [DecidableEq κ] (key : κ) (v : γ) :
    ∀ (acc : List (κ × List γ)) (b : κ) (g : List γ),
      (b, g) ∈ assocAppend acc key v → ∀ w ∈ g,
      (∃ g0, (b, g0) ∈ acc ∧ w ∈ g0) ∨ (b = key ∧ w = v) := by
  intro acc
  induction acc with
  | nil =>
    intro b g hg w hw
    simp only [assocAppend, List.mem_singleton, Prod.mk.injEq] at hg
    obtain ⟨rfl, rfl⟩ := hg
    simp only [List.mem_singleton] at hw
    exact Or.inr ⟨rfl, hw⟩
  | cons p rest ih =>
    intro b g hg w hw
    obtain ⟨k0, vs⟩ := p
    simp only [assocAppend] at hg
    by_cases hk : k0 = key
    · rw [if_pos hk] at hg
      rcases List.mem_cons.1 hg with heq | hg
      · rw [Prod.mk.injEq] at heq
        obtain ⟨rfl, rfl⟩ := heq
        rcases List.mem_append.1 hw with hw | hw
        · exact Or.inl ⟨vs, List.mem_cons_self _ _, hw⟩
        · simp only [List.mem_singleton] at hw
          exact Or.inr ⟨hk, hw⟩
      · exact Or.inl ⟨g, List.mem_cons_of_mem _ hg, hw⟩
    · rw [if_neg hk] at hg
      rcases List.mem_cons.1 hg with heq | hg
      · rw [Prod.mk.injEq] at heq
        obtain ⟨rfl, rfl⟩ := heq
        exact Or.inl ⟨g, List.mem_cons_self _ _, hw⟩
      · rcases ih b g hg w hw with ⟨g0, hg0, hwg0⟩ | hr
        · exact Or.inl ⟨g0, List.mem_cons_of_mem _ hg0, hwg0⟩
        · exact Or.inr hr


theorem assocFold_mem {κ γ ι : Type} [DecidableEq κ]
    (keyf : ι → κ) (valf : ι → γ) :
    ∀ (l : List ι) (acc : List (κ × List γ)) (b : κ) (g : List γ),
      (b, g) ∈ l.foldl (fun acc i => assocAppend acc (keyf i) (valf i)) acc →
      ∀ w ∈ g,
      (∃ g0, (b, g0) ∈ acc ∧ w ∈ g0) ∨ (∃ i ∈ l, keyf i = b ∧ valf i = w) := by
  intro l
  induction l with
  | nil =>
    intro acc b g hg w hw
    exact Or.inl ⟨g, hg, hw⟩
  | cons i rest ih =>
    intro acc b g hg w hw
    simp only [List.foldl_cons] at hg
    rcases ih _ b g hg w hw with ⟨g0, hg0, hwg0⟩ | ⟨j, hj, hkey, hval⟩
    · rcases assocAppend_mem (keyf i) (valf i) acc b g0 hg0 w hwg0 with
        ⟨g1, hg1, hwg1⟩ | ⟨hb, hwv⟩
      · exact Or.inl ⟨g1, hg1, hwg1⟩
      · exact Or.inr ⟨i, List.mem_cons_self _ _, hb.symm, hwv.symm⟩
    · exact Or.inr ⟨j, List.mem_cons_of_mem _ hj, hkey, hval⟩

theorem assocAppend_entries {κ γ : Type} [DecidableEq κ]
    (P : κ → γ → Prop) (key : κ) (v : γ) (acc : List (κ × List γ))
    (hacc : ∀ kg ∈ acc, ∀ w ∈ kg.2, P kg.1 w) (hv : P key v) :
    ∀ kg ∈ assocAppend acc key v, ∀ w ∈ kg.2, P kg.1 w := by
  intro kg hkg w hw
  obtain ⟨b, g⟩ := kg
  rcases assocAppend_mem key v acc b g hkg w hw with ⟨g0, hg0, hwg0⟩ | ⟨hb, hwv⟩
  · exact hacc (b, g0) hg0 w hwg0
  · rw [hb, hwv]
    exact hv

theorem zip_map_self {ID κ : Type} (bk : ID → κ) :
    ∀ (ids : List ID) (p : ID × κ), p ∈ ids.zip (ids.map bk) →
      p.2 = bk p.1 ∧ p.1 ∈ ids := by
  intro ids
  induction ids with
  | nil => intro p hp; exact absurd hp (List.not_mem_nil p)
  | cons i rest ih =>
    intro p hp
    simp only [List.map_cons, List.zip_cons_cons, List.mem_cons] at hp
    rcases hp with rfl | hp
    · exact ⟨rfl, List.mem_cons_self _ _⟩
    · obtain ⟨h1, h2⟩ := ih p hp
      exact ⟨h1, List.mem_cons_of_mem _ h2⟩

theorem mem_of_mem_enum {γ : Type} {l : List γ} {q : ℕ × γ}
    (h : q ∈ l.enum) : q.2 ∈ l := by
  obtain ⟨i, a⟩ := q
  obtain ⟨hlt, heq⟩ := List.mem_enum h
  rw [heq]
  exact List.getElem_mem hlt

theorem foldGroups_blockInv {ID κ κ' : Type} [DecidableEq ID] (bk : ID → κ)
    (sim : ℕ → ℕ → ℚ) (th : ℚ) :
    ∀ (groups : List (κ' × List (ℕ × ID))) (uf : UnionFind ID),
      (∀ kg ∈ groups, ∀ p ∈ kg.2, ∀ q ∈ kg.2, bk p.2 = bk q.2) →
      BlockInv bk uf →
      BlockInv bk (groups.foldl (fun uf g =>
        if g.2.length < 2 then uf
        else unionPairs sim th uf (listPairsUT g.2)) uf) := by
  intro groups
  induction groups with
  | nil => intro uf _ h; exact h
  | cons g rest ih =>
    intro uf hg h
    simp only [List.foldl_cons]
    by_cases hlen : g.2.length < 2
    · rw [if_pos hlen]
      exact ih uf (fun kg hkg => hg kg (List.mem_cons_of_mem _ hkg)) h
    · rw [if_neg hlen]
      refine ih _ (fun kg hkg => hg kg (List.mem_cons_of_mem _ hkg)) ?_
      refine unionPairs_blockInv bk sim th _ uf (fun pq hpq => ?_) h
      obtain ⟨h1, h2⟩ := listPairsUT_mem g.2 pq hpq
      exact hg g (List.mem_cons_self _ _) pq.1 h1 pq.2 h2

theorem foldGroups_keys {ID κ' : Type} [DecidableEq ID]
    (sim : ℕ → ℕ → ℚ) (th : ℚ) :
    ∀ (groups : List (κ' × List (ℕ × ID))) (uf : UnionFind ID),
      (∀ kg ∈ groups, ∀ p ∈ kg.2, p.2 ∈ uf.parentKeys) → KeysClosed uf →
      (groups.foldl (fun uf g =>
        if g.2.length < 2 then uf
        else unionPairs sim th uf (listPairsUT g.2)) uf).parentKeys =
        uf.parentKeys ∧
      KeysClosed (groups.foldl (fun uf g =>
        if g.2.length < 2 then uf
        else unionPairs sim th uf (listPairsUT g.2)) uf) := by
  intro groups
  induction groups with
  | nil => intro uf _ hc; exact ⟨rfl, hc⟩
  | cons g rest ih =>
    intro uf hg hc
    simp only [List.foldl_cons]
    by_cases hlen : g.2.length < 2
    · rw [if_pos hlen]
      exact ih uf (fun kg hkg => hg kg (List.mem_cons_of_mem _ hkg)) hc
    · rw [if_neg hlen]
      obtain ⟨hk1, hc1⟩ := unionPairs_keys sim th (listPairsUT g.2) uf
        (fun pq hpq => by
          obtain ⟨h1, h2⟩ := listPairsUT_mem g.2 pq hpq
          exact ⟨hg g (List.mem_cons_self _ _) pq.1 h1,
            hg g (List.mem_cons_self _ _) pq.2 h2⟩) hc
      obtain ⟨hk2, hc2⟩ := ih (unionPairs sim th uf (listPairsUT g.2))
        (fun kg hkg p hp => by
          rw [hk1]
          exact hg kg (List.mem_cons_of_mem _ hkg) p hp) hc1
      rw [hk1] at hk2
      exact ⟨hk2, hc2⟩

theorem assocAppend_join_perm {κ γ : Type} [DecidableEq κ] (key : κ) (v : γ) :
    ∀ acc : List (κ × List γ),
      (((assocAppend acc key v).map Prod.snd).join).Perm
        (((acc.map Prod.snd).join) ++ [v]) := by
  intro acc
  induction acc with
  | nil => simp [assocAppend]
  | cons p rest ih =>
    obtain ⟨k0, vs⟩ := p
    simp only [assocAppend]
    by_cases hk : k0 = key
    · rw [if_pos hk]
      simp only [List.map_cons, List.flatten_cons]
      rw [List.append_assoc, List.append_assoc]
      exact List.Perm.append_left vs List.perm_append_comm
    · rw [if_neg hk]
      simp only [List.map_cons, List.flatten_cons]
      rw [List.append_assoc]
      exact List.Perm.append_left vs ih


theorem getClustersFold_perm {ID : Type} [DecidableEq ID] :
    ∀ (items : List ID) (uf : UnionFind ID) (acc : List (ID × List ID)),
      KeysClosed uf → (∀ i ∈ items, i ∈ uf.parentKeys) →
      ((((items.foldl (fun st item =>
          let fr := find st.1 item
          (fr.1, assocAppend st.2 fr.2 item)) (uf, acc)).2).map
            Prod.snd).join).Perm
        (((acc.map Prod.snd).join) ++ items) := by
  intro items
  induction items with
  | nil =>
    intro uf acc _ _
    simpa using List.Perm.refl _
  | cons i rest ih =>
    intro uf acc hc hmem
    simp only [List.foldl_cons]
    obtain ⟨hk, hcl, _⟩ := find_keys_mem (hmem i (List.mem_cons_self _ _)) hc
    have hrest : ∀ j ∈ rest, j ∈ (find uf i).1.parentKeys := fun j hj => by
      rw [hk]; exact hmem j (List.mem_cons_of_mem _ hj)
    refine (ih (find uf i).1 (assocAppend acc (find uf i).2 i) hcl hrest).trans
      ?_
    refine ((assocAppend_join_perm ((find uf i).2) i acc).append_right
      rest).trans ?_
    rw [List.append_assoc]
    simp

theorem getClustersFold_entries {ID κ : Type} [DecidableEq ID] (bk : ID → κ) :
    ∀ (items : List ID) (uf : UnionFind ID) (acc : List (ID × List ID)),
      BlockInv bk uf → (∀ kg ∈ acc, ∀ w ∈ kg.2, bk w = bk kg.1) →
      ∀ kg ∈ (items.foldl (fun st item =>
          let fr := find st.1 item
          (fr.1, assocAppend st.2 fr.2 item)) (uf, acc)).2,
        ∀ w ∈ kg.2, bk w = bk kg.1 := by
  intro items
  induction items with
  | nil =>
    intro uf acc _ hacc
    exact hacc
  | cons i rest ih =>
    intro uf acc hinv hacc
    simp only [List.foldl_cons]
    obtain ⟨hinv1, hroot⟩ := find_blockInv bk i hinv
    exact ih (find uf i).1 _ hinv1
      (assocAppend_entries (fun r w => bk w = bk r) _ i acc hacc hroot.symm)

theorem dedupUF_keys {ID β : Type} [DecidableEq ID] [DecidableEq β]
    (item_ids : List ID) (sim : ℕ → ℕ → ℚ) (th : ℚ)
    (blocks : Option (List β)) :
    (dedupUF item_ids sim th blocks).parentKeys = pySetList item_ids ∧
    KeysClosed (dedupUF item_ids sim th blocks) := by
  obtain ⟨hk0, hc0⟩ := ufInit_keys item_ids
  have hglobal :
      (unionPairs sim th (ufInit item_ids)
        (listPairsUT item_ids.enum)).parentKeys = pySetList item_ids ∧
      KeysClosed (unionPairs sim th (ufInit item_ids)
        (listPairsUT item_ids.enum)) := by
    obtain ⟨hk, hc⟩ := unionPairs_keys sim th (listPairsUT item_ids.enum)
      (ufInit item_ids)
      (fun pq hpq => by
        obtain ⟨h1, h2⟩ := listPairsUT_mem item_ids.enum pq hpq
        rw [hk0]
        exact ⟨mem_pySetList.2 (mem_of_mem_enum h1),
          mem_pySetList.2 (mem_of_mem_enum h2)⟩) hc0
    rw [hk0] at hk
    exact ⟨hk, hc⟩
  match blocks with
  | none => exact hglobal
  | some bl =>
    by_cases hbl : bl.isEmpty
    · simp only [dedupUF, hbl, Bool.not_true, Bool.false_eq_true, if_false]
      exact hglobal
    · simp only [dedupUF, hbl, Bool.not_false, if_true]
      have hgroups : ∀ kg ∈ (((item_ids.zip bl).enum).foldl
          (fun acc ip => assocAppend acc ip.2.2 (ip.1, ip.2.1)) []),
          ∀ p ∈ kg.2, p.2 ∈ (ufInit item_ids).parentKeys := by
        intro kg hkg p hp
        obtain ⟨b, g⟩ := kg
        rcases assocFold_mem (fun ip => ip.2.2) (fun ip => (ip.1, ip.2.1))
            ((item_ids.zip bl).enum) [] b g hkg p hp with
          ⟨g0, hg0, _⟩ | ⟨ip, hip, _, hval⟩
        · exact absurd hg0 (List.not_mem_nil _)
        · have hzip := mem_of_mem_enum hip
          have hin := (List.mem_zip hzip).1
          rw [hk0]
          have : p.2 = ip.2.1 := by rw [← hval]
          rw [this]
          exact mem_pySetList.2 hin
      obtain ⟨hk, hc⟩ := foldGroups_keys sim th _ (ufInit item_ids) hgroups hc0
      rw [hk0] at hk
      exact ⟨by simpa [processBlocks] using hk, by simpa [processBlocks] using hc⟩

theorem join_sublist {γ : Type} :
    ∀ {l₁ l₂ : List (List γ)}, l₁.Sublist l₂ → l₁.join.Sublist l₂.join := by
  intro l₁ l₂ h
  induction h with
  | slnil => exact List.Sublist.refl _
  | cons a _ ih => exact ih.trans (List.sublist_append_right a _)
  | cons₂ a _ ih => exact (List.Sublist.refl a).append ih


/-! ### Claims C2 and C6: clustering invariants -/

/-- C2: with blocking keys given (as a key function over the item ids),
no cluster returned by `deduplicate_items` contains two items whose
blocking keys differ — for every similarity matrix and threshold. -/
theorem c2_blocking_never_merges_blocks {ID κ : Type} [DecidableEq ID]
    [DecidableEq κ] (item_ids : List ID) (bk : ID → κ) (sim : ℕ → ℕ → ℚ)
    (th : ℚ) (cid : ID) (mems : List ID)
    (hmem : (cid, mems) ∈
      deduplicate_items item_ids sim th (some (item_ids.map bk)))
    (x : ID) (hx : x ∈ mems) (y : ID) (hy : y ∈ mems) : bk x = bk y := by
  by_cases hids : item_ids = []
  · subst hids
    simp [deduplicate_items, raw_clusters, dedupUF, ufInit, get_clusters,
      unionPairs, listPairsUT] at hmem
  · have hblne : ¬(item_ids.map bk).isEmpty = true := by
      rw [isEmpty_false_of_ne_nil (by simpa using hids)]
      simp
    have hone : ∀ kg ∈ (((item_ids.zip (item_ids.map bk)).enum).foldl
        (fun acc ip => assocAppend acc ip.2.2 (ip.1, ip.2.1)) []),
        ∀ p ∈ kg.2, bk p.2 = kg.1 := by
      intro kg hkg p hp
      obtain ⟨b, g⟩ := kg
      rcases assocFold_mem (fun ip => ip.2.2) (fun ip => (ip.1, ip.2.1))
          ((item_ids.zip (item_ids.map bk)).enum) [] b g hkg p hp with
        ⟨g0, hg0, _⟩ | ⟨ip, hip, hkey, hval⟩
      · exact absurd hg0 (List.not_mem_nil _)
      · have hzm := zip_map_self bk item_ids ip.2 (mem_of_mem_enum hip)
        have hp2 : p.2 = ip.2.1 := by rw [← hval]
        show bk p.2 = b
        rw [hp2, ← hzm.1, hkey]
    have hgroups : ∀ kg ∈ (((item_ids.zip (item_ids.map bk)).enum).foldl
        (fun acc ip => assocAppend acc ip.2.2 (ip.1, ip.2.1)) []),
        ∀ p ∈ kg.2, ∀ q ∈ kg.2, bk p.2 = bk q.2 := by
      intro kg hkg p hp q hq
      rw [hone kg hkg p hp, hone kg hkg q hq]
    have hinv : BlockInv bk
        (dedupUF item_ids sim th (some (item_ids.map bk))) := by
      have heq : dedupUF item_ids sim th (some (item_ids.map bk)) =
          processBlocks sim th (ufInit item_ids) item_ids
            (item_ids.map bk) := by
        simp only [dedupUF, if_pos hblne]
      rw [heq]
      simp only [processBlocks]
      exact foldGroups_blockInv bk sim th _ _ hgroups
        (ufInit_blockInv bk item_ids)
    have hraw : (cid, mems) ∈
        raw_clusters item_ids sim th (some (item_ids.map bk)) :=
      List.mem_of_mem_filter hmem
    simp only [raw_clusters, get_clusters] at hraw
    have hentries := getClustersFold_entries bk
      (dedupUF item_ids sim th (some (item_ids.map bk))).parentKeys
      (dedupUF item_ids sim th (some (item_ids.map bk))) [] hinv
      (fun kg hkg => absurd hkg (List.not_mem_nil _))
    have h1 := hentries (cid, mems) hraw x hx
    have h2 := hentries (cid, mems) hraw y hy
    rw [h1, h2]

/-- Witness for C2 at a concrete input: two even ids in the same parity
block, similarity 1, threshold 0. -/
theorem c2_blocking_never_merges_blocks_witness : (10 : ℕ) % 2 = 12 % 2 :=
  c2_blocking_never_merges_blocks [10, 12] (fun n => n % 2) (fun _ _ => 1) 0
    10 [10, 12] (by decide) 10 (by decide) 12 (by decide)

/-- C6: for every clustering input (with identifiers forming a set, as
Python dict keys do), `deduplicate_items` returns only clusters of at
least two members; its returned members are pairwise distinct across and
inside clusters (so clusters are pairwise disjoint); every returned
member is an input id; and in the underlying (unfiltered) partition every
input identifier belongs to exactly one cluster. -/
theorem c6_cluster_partition {ID β : Type} [DecidableEq ID] [DecidableEq β]
    (item_ids : List ID) (sim : ℕ → ℕ → ℚ) (th : ℚ)
    (blocks : Option (List β)) :
    (∀ p ∈ deduplicate_items item_ids sim th blocks, 2 ≤ p.2.length) ∧
    (((deduplicate_items item_ids sim th blocks).map Prod.snd).join).Nodup ∧
    (∀ x ∈ ((deduplicate_items item_ids sim th blocks).map Prod.snd).join,
      x ∈ item_ids) ∧
    (∀ x ∈ item_ids,
      (((raw_clusters item_ids sim th blocks).map Prod.snd).join).count x
        = 1) := by
  obtain ⟨hk1, hc1⟩ := dedupUF_keys item_ids sim th blocks
  have hperm : (((raw_clusters item_ids sim th blocks).map
      Prod.snd).join).Perm (pySetList item_ids) := by
    have h := getClustersFold_perm
      (dedupUF item_ids sim th blocks).parentKeys
      (dedupUF item_ids sim th blocks) [] hc1 (fun i hi => hi)
    rw [hk1] at h
    simpa [raw_clusters, get_clusters, hk1] using h
  have hnd_raw : (((raw_clusters item_ids sim th blocks).map
      Prod.snd).join).Nodup :=
    hperm.nodup_iff.2 (pySetList_nodup item_ids)
  have hsub : (((deduplicate_items item_ids sim th blocks).map
      Prod.snd).join).Sublist
      (((raw_clusters item_ids sim th blocks).map Prod.snd).join) :=
    join_sublist ((List.filter_sublist _).map Prod.snd)
  refine ⟨?_, ?_, ?_, ?_⟩
  · intro p hp
    have h := List.of_mem_filter hp
    simp only [decide_eq_true_eq] at h
    omega
  · exact hsub.nodup hnd_raw
  · intro x hx
    exact mem_pySetList.1 (hperm.mem_iff.1 (hsub.subset hx))
  · intro x hxids
    rw [hperm.count_eq x]
    have h1 := List.nodup_iff_count_le_one.1 (pySetList_nodup item_ids) x
    have h2 : 0 < (pySetList item_ids).count x :=
      List.count_pos_iff.2 (mem_pySetList.2 hxids)
    omega

/-- Witness for C6 at a concrete input: a single item forms a singleton
raw cluster containing it exactly once. -/
theorem c6_cluster_partition_witness :
    (((raw_clusters [3] (fun _ _ => 0) 1
      (none : Option (List ℕ))).map Prod.snd).join).count 3 = 1 :=
  (c6_cluster_partition [3] (fun _ _ => 0) 1 none).2.2.2 3 (by decide)

end MIS
